import Mathlib

/-!
Verification of the longest-Lyndon-subsequence program (src/main.rs):
a shallow embedding of the Rust program computing the longest Lyndon
subsequence of a byte string, together with proofs about it.

Conventions of the embedding:

* Bytes are natural numbers (`u8` values are 0–255); texts are `List Nat`.
* The `usize::MAX` sentinel stored in the char map and in `larray` is
  modelled as `Option.none`.
* An out-of-range slice index that the Rust program would panic on is
  modelled as an `Option.none` result (`charmapWrite`), and the panic is
  propagated through the search (`StepOut.panicked` / `RunResult.panicked`).
* The Rust `Vec` used as the DFS stack is modelled as a list whose *head*
  is the top of the stack (the most recently pushed element); the bottom
  of the Rust vector is the last element of the list.  The vector index
  `stack[stack.len() - p]` therefore becomes the list index `p - 1`.
* The iterative `while` loop is modelled by a single-iteration `step`
  function driven by a fuel-indexed `loop`; `RunResult.outOfFuel` never
  occurs for the fuel bound used (proved below).
-/

namespace LLS

/-- One entry of the DFS stack: a text position together with the period
of the candidate subsequence prefix ending at that position.
(Mirrors `struct StackElement` in the source.) -/
structure StackElement where
  text_pos : Nat
  period : Nat
deriving Repr, DecidableEq

/-- Insert into a sorted list, used by `sortLe`. -/
def insertLe (le : α → α → Bool) (a : α) : List α → List α
  | [] => [a]
  | b :: t => if le a b then a :: b :: t else b :: insertLe le a t

/-- A comparison sort (insertion sort), modelling `sort_unstable_by` of the
source.  The keys the program sorts by are pairwise distinct, so every
comparison sort produces the same output; this structurally recursive one is
used so that the definitions evaluate by kernel reduction. -/
def sortLe (le : α → α → Bool) : List α → List α
  | [] => []
  | a :: t => insertLe le a (sortLe le t)

/-- The initial char map: 255 entries, all unset.  The size 255 mirrors
`[usize::MAX; u8::MAX as usize]` in the source (note: *not* 256). -/
def charmapInit : List (Option Nat) := List.replicate 255 none

/-- One write `charmap[c] = i` of the loop in `leftmost_distinct_characters`;
the result is `none` when `c` is out of range of the 255-entry table,
modelling the Rust index panic (this happens exactly for byte value 255). -/
def charmapWrite (cm : Option (List (Option Nat))) (ic : Nat × Nat) :
    Option (List (Option Nat)) :=
  cm.bind fun m => if ic.2 < m.length then some (m.set ic.2 (some ic.1)) else none

/-- The char-map building loop `for (i, c) in text.iter().enumerate().rev()`. -/
def buildCharmap (text : List Nat) : Option (List (Option Nat)) :=
  (text.enum.reverse).foldl charmapWrite (some charmapInit)

/-- Function `leftmost_distinct_characters` from the source: build the char map by a
reversed scan (so each byte value keeps its leftmost position), keep the
set entries, and sort them by the byte value at the recorded position.
`none` models the panic on byte value 255. -/
def leftmost_distinct_characters (text : List Nat) : Option (List Nat) :=
  (buildCharmap text).map fun cm =>
    sortLe (fun a b => decide (text.getD a 0 ≤ text.getD b 0)) (cm.filterMap id)

/-- Function `successor_element` from the source.  The outer `Option` models a panic
inside `leftmost_distinct_characters`; the inner `Option` is the function's
own return value (`some none` = "no successor"). -/
def successor_element (text : List Nat) (start : Nat) (value : Nat) :
    Option (Option Nat) :=
  if start ≥ text.length then some none
  else
    (leftmost_distinct_characters (text.drop start)).map fun list =>
      list.findSome? fun v =>
        if value ≤ text.getD (start + v) 0 then some (start + v) else none

/-- Function `subsequence` from the source: read the text at the recorded positions
(the argument is in bottom-first order, as the Rust `Vec` is). -/
def subsequence (text : List Nat) (stack : List StackElement) : List Nat :=
  stack.map fun el => text.getD el.text_pos 0

/-- The mutable state of `longest_lyndon_subsequence`'s loops.  `stack` and
`best` are stored top-first (head = most recently pushed element); `seeds`
is the not-yet-consumed remainder of the outer `for` loop's iterator. -/
structure SearchState where
  larray : List (Option Nat)
  best : List StackElement
  stack : List StackElement
  lastchildedgelabel : Nat
  upwardmove : Bool
  seeds : List Nat
deriving Repr, DecidableEq

/-- Value `text[stack[stack.len() - top.period].text_pos]` from the source: with the
top-first list representation, vector index `len - p` is list index `p - 1`. -/
def immatureOf (text : List Nat) (stack : List StackElement) : Nat :=
  text.getD ((stack.getD ((stack.headD ⟨0, 0⟩).period - 1) ⟨0, 0⟩).text_pos) 0

/-- Result of one iteration of the search. -/
inductive StepOut where
  | panicked
  | next (s : SearchState)
  | finished (best : List StackElement)
deriving Repr, DecidableEq

/-- One iteration of the search: when the stack is empty, take the next seed
of the outer `for` loop (or finish); otherwise execute one iteration of the
inner `while` loop body. -/
def step (text : List Nat) (s : SearchState) : StepOut :=
  match s.stack with
  | [] =>
    match s.seeds with
    | [] => .finished s.best
    | q :: rest =>
      let stack' : List StackElement := [⟨q, 1⟩]
      .next { s with
                stack := stack'
                best := if s.best.isEmpty then stack' else s.best
                seeds := rest }
  | top :: below =>
    let immature := immatureOf text s.stack
    let compare := if s.upwardmove then s.lastchildedgelabel else immature
    match successor_element text (top.text_pos + 1) compare with
    | none => .panicked
    | some none =>
      .next { s with
                upwardmove := true
                lastchildedgelabel := text.getD top.text_pos 0 + 1
                stack := below }
    | some (some i) =>
      let len' := s.stack.length + 1
      let pruned : Bool :=
        match s.larray.getD len' none with
        | some v => decide (v < i)
        | none => false
      if pruned then
        .next { s with
                  upwardmove := true
                  lastchildedgelabel := text.getD i 0 + 1 }
      else
        let new_period := if immature = text.getD i 0 then top.period else len'
        let stack' := StackElement.mk i new_period :: s.stack
        if new_period = len' then
          .next { larray := s.larray.set len' (some i)
                  best := if s.best.length < len' then stack' else s.best
                  stack := stack'
                  lastchildedgelabel := s.lastchildedgelabel
                  upwardmove := false
                  seeds := s.seeds }
        else
          .next { s with stack := stack', upwardmove := false }

/-- Result of a fuel-driven run: `outOfFuel` marks fuel exhaustion (shown
below never to happen for `lls_fuel`), `panicked` a Rust panic. -/
inductive RunResult where
  | panicked
  | outOfFuel
  | ok (result : List StackElement)
deriving Repr, DecidableEq

/-- Run the search for at most `fuel` iterations. -/
def loop (text : List Nat) : Nat → SearchState → RunResult
  | 0, _ => .outOfFuel
  | fuel + 1, s =>
    match step text s with
    | .panicked => .panicked
    | .finished best => .ok best
    | .next s' => loop text fuel s'

/-- The state at entry of the outer `for` loop of the source. -/
def initState (text : List Nat) (seeds : List Nat) : SearchState :=
  { larray := List.replicate (text.length + 1) none
    best := []
    stack := []
    lastchildedgelabel := 0
    upwardmove := false
    seeds := seeds }

/-- Fuel bound; proved sufficient below (`loop_no_outOfFuel`). -/
def lls_fuel (text : List Nat) : Nat :=
  (text.length + 257) * (258 ^ (text.length + 1) + 1)

/-- Function `longest_lyndon_subsequence` from the source.  The returned stack is
reversed into the bottom-first order of the Rust `Vec`. -/
def longest_lyndon_subsequence (text : List Nat) : RunResult :=
  match leftmost_distinct_characters text with
  | none => .panicked
  | some seeds =>
    match loop text (lls_fuel text) (initState text seeds) with
    | .panicked => .panicked
    | .outOfFuel => .outOfFuel
    | .ok st => .ok st.reverse

/-! Reference description of `leftmost_distinct_characters`, and its proof. -/

/-- Index of the leftmost occurrence of byte value `c`, or `none`. -/
def leftmostIdx? (c : Nat) : List Nat → Option Nat
  | [] => none
  | b :: t => if b = c then some 0 else (leftmostIdx? c t).map (· + 1)

/-- Reference description of `leftmost_distinct_characters` on clean texts:
for each byte value `c < 255` present in the text, the leftmost index of
`c`, listed in ascending order of `c`. -/
def ldcSpec (text : List Nat) : List Nat :=
  (List.range 255).filterMap fun c => leftmostIdx? c text

/-- The char map described pointwise: entry `c` is the leftmost index of
byte value `c`, shifted by `k` (the enumeration offset). -/
def cmOf (text : List Nat) (k : Nat) : List (Option Nat) :=
  (List.range 255).map fun c => (leftmostIdx? c text).map (· + k)

theorem leftmostIdx?_nil (c : Nat) : leftmostIdx? c [] = none := rfl

theorem leftmostIdx?_cons (c b : Nat) (t : List Nat) :
    leftmostIdx? c (b :: t) =
      if b = c then some 0 else (leftmostIdx? c t).map (· + 1) := rfl

theorem leftmostIdx?_spec {c : Nat} {text : List Nat} {p : Nat}
    (h : leftmostIdx? c text = some p) :
    p < text.length ∧ text.getD p 0 = c ∧ ∀ j < p, text.getD j 0 ≠ c := by
  induction text generalizing p with
  | nil => exact absurd h (by simp [leftmostIdx?_nil])
  | cons b t ih =>
    rw [leftmostIdx?_cons] at h
    by_cases hbc : b = c
    · rw [if_pos hbc] at h
      have hp : p = 0 := by
        have := h
        simp at this
        omega
      subst hp
      exact ⟨by simp, by simpa using hbc, fun j hj => by omega⟩
    · rw [if_neg hbc] at h
      obtain ⟨q, hq, hqp⟩ := Option.map_eq_some'.mp h
      obtain ⟨h1, h2, h3⟩ := ih hq
      subst hqp
      refine ⟨by simpa using h1, by simpa using h2, ?_⟩
      intro j hj
      match j with
      | 0 => simpa using hbc
      | j + 1 => simpa using h3 j (by omega)

theorem leftmostIdx?_isSome {c : Nat} {text : List Nat} (h : c ∈ text) :
    ∃ p, leftmostIdx? c text = some p := by
  induction text with
  | nil => simp at h
  | cons b t ih =>
    by_cases hbc : b = c
    · exact ⟨0, by rw [leftmostIdx?_cons, if_pos hbc]⟩
    · rcases List.mem_cons.mp h with h | h
      · exact absurd h.symm hbc
      · obtain ⟨p, hp⟩ := ih h
        exact ⟨p + 1, by rw [leftmostIdx?_cons, if_neg hbc, hp]; rfl⟩

theorem leftmostIdx?_of_none {c : Nat} {text : List Nat}
    (h : leftmostIdx? c text = none) : c ∉ text := by
  intro hc
  obtain ⟨p, hp⟩ := leftmostIdx?_isSome hc
  rw [h] at hp
  exact Option.noConfusion hp

theorem cmOf_length (text : List Nat) (k : Nat) : (cmOf text k).length = 255 := by
  unfold cmOf
  rw [List.length_map, List.length_range]

theorem charmapInit_length : charmapInit.length = 255 := by
  unfold charmapInit
  rw [List.length_replicate]

theorem cmOf_getElem (text : List Nat) (k n : Nat)
    (h : n < (cmOf text k).length) :
    (cmOf text k)[n] = (leftmostIdx? n text).map (· + k) := by
  simp only [cmOf] at h ⊢
  rw [List.getElem_map, List.getElem_range]

theorem cmOf_nil (k : Nat) : cmOf [] k = charmapInit := by
  apply List.ext_getElem (by rw [cmOf_length, charmapInit_length])
  intro n h1 h2
  rw [cmOf_getElem, leftmostIdx?_nil, Option.map_none']
  unfold charmapInit
  rw [List.getElem_replicate]

theorem cmOf_cons {c : Nat} (hc : c < 255) (t : List Nat) (k : Nat) :
    (cmOf t (k + 1)).set c (some k) = cmOf (c :: t) k := by
  apply List.ext_getElem (by rw [List.length_set, cmOf_length, cmOf_length])
  intro n h1 h2
  have hn : n < 255 := by rwa [cmOf_length] at h2
  rw [List.getElem_set, cmOf_getElem _ _ _ h2, leftmostIdx?_cons]
  by_cases hcn : c = n
  · rw [if_pos hcn, if_pos hcn, Option.map_some']
    simp
  · rw [if_neg hcn, if_neg hcn, cmOf_getElem _ _ _ (by rwa [cmOf_length]),
      Option.map_map]
    congr 1
    funext x
    simp only [Function.comp_apply]
    omega

theorem enumFrom_foldr_clean {text : List Nat} (hclean : ∀ b ∈ text, b < 255) :
    ∀ k, (text.enumFrom k).foldr (fun ic cm => charmapWrite cm ic)
      (some charmapInit) = some (cmOf text k) := by
  induction text with
  | nil => intro k; rw [cmOf_nil]; rfl
  | cons c t ih =>
    intro k
    have hc : c < 255 := hclean c (by simp)
    have ht : ∀ b ∈ t, b < 255 := fun b hb => hclean b (by simp [hb])
    show charmapWrite ((t.enumFrom (k + 1)).foldr
      (fun ic cm => charmapWrite cm ic) (some charmapInit)) (k, c) = _
    rw [ih ht (k + 1)]
    show (if c < (cmOf t (k + 1)).length then
        some ((cmOf t (k + 1)).set c (some k)) else none) = _
    rw [cmOf_length, if_pos hc, cmOf_cons hc]

theorem enumFrom_foldr_dirty {text : List Nat} (hdirty : ∃ b ∈ text, 255 ≤ b) :
    ∀ k, (text.enumFrom k).foldr (fun ic cm => charmapWrite cm ic)
      (some charmapInit) = none := by
  induction text with
  | nil => simp at hdirty
  | cons c t ih =>
    intro k
    show charmapWrite ((t.enumFrom (k + 1)).foldr
      (fun ic cm => charmapWrite cm ic) (some charmapInit)) (k, c) = _
    by_cases hdt : ∃ b ∈ t, 255 ≤ b
    · rw [ih hdt (k + 1)]; rfl
    · have ht : ∀ b ∈ t, b < 255 := by
        intro b hb
        by_contra hb'
        exact hdt ⟨b, hb, by omega⟩
      have hc : 255 ≤ c := by
        rcases hdirty with ⟨b, hb, hble⟩
        rcases List.mem_cons.mp hb with hb | hb
        · omega
        · exact absurd (ht b hb) (by omega)
      rw [enumFrom_foldr_clean ht (k + 1)]
      show (if c < (cmOf t (k + 1)).length then
        some ((cmOf t (k + 1)).set c (some k)) else none) = _
      rw [cmOf_length, if_neg (by omega)]

theorem buildCharmap_clean {text : List Nat} (hclean : ∀ b ∈ text, b < 255) :
    buildCharmap text = some (cmOf text 0) := by
  unfold buildCharmap
  rw [List.foldl_reverse]
  exact enumFrom_foldr_clean hclean 0

theorem buildCharmap_dirty {text : List Nat} (hdirty : ∃ b ∈ text, 255 ≤ b) :
    buildCharmap text = none := by
  unfold buildCharmap
  rw [List.foldl_reverse]
  exact enumFrom_foldr_dirty hdirty 0

theorem sortLe_of_pairwise {α : Type} {le : α → α → Bool} {l : List α}
    (h : l.Pairwise fun x y => le x y = true) : sortLe le l = l := by
  induction l with
  | nil => rfl
  | cons a t ih =>
    rw [List.pairwise_cons] at h
    show insertLe le a (sortLe le t) = a :: t
    rw [ih h.2]
    cases t with
    | nil => rfl
    | cons b t' =>
      show (if le a b then a :: b :: t' else b :: insertLe le a t') = a :: b :: t'
      rw [if_pos (h.1 b (by simp))]

theorem mem_ldcSpec {p : Nat} {text : List Nat} :
    p ∈ ldcSpec text ↔ ∃ c, c < 255 ∧ leftmostIdx? c text = some p := by
  unfold ldcSpec
  rw [List.mem_filterMap]
  constructor
  · rintro ⟨c, hc, hp⟩
    exact ⟨c, List.mem_range.mp hc, hp⟩
  · rintro ⟨c, hc, hp⟩
    exact ⟨c, List.mem_range.mpr hc, hp⟩

theorem pairwise_ldcSpec (text : List Nat) :
    (ldcSpec text).Pairwise fun a b => text.getD a 0 < text.getD b 0 := by
  unfold ldcSpec
  rw [List.pairwise_filterMap]
  have hr : (List.range 255).Pairwise (· < ·) := List.pairwise_lt_range 255
  apply hr.imp
  intro c c' hcc b hb b' hb'
  have hs := leftmostIdx?_spec (Option.mem_def.mp hb)
  have hs' := leftmostIdx?_spec (Option.mem_def.mp hb')
  rw [hs.2.1, hs'.2.1]
  exact hcc

theorem ldc_clean {text : List Nat} (hclean : ∀ b ∈ text, b < 255) :
    leftmost_distinct_characters text = some (ldcSpec text) := by
  unfold leftmost_distinct_characters
  rw [buildCharmap_clean hclean, Option.map_some']
  congr 1
  have hfm : (cmOf text 0).filterMap id = ldcSpec text := by
    unfold cmOf ldcSpec
    rw [List.filterMap_map]
    congr 1
    funext c
    show Option.map (· + 0) (leftmostIdx? c text) = leftmostIdx? c text
    have hid : (fun x : Nat => x + 0) = id := funext fun x => Nat.add_zero x
    rw [hid, Option.map_id, id]
  rw [hfm]
  apply sortLe_of_pairwise
  apply (pairwise_ldcSpec text).imp
  intro a b hab
  exact decide_eq_true (Nat.le_of_lt hab)

theorem ldc_dirty {text : List Nat} (hdirty : ∃ b ∈ text, 255 ≤ b) :
    leftmost_distinct_characters text = none := by
  unfold leftmost_distinct_characters
  rw [buildCharmap_dirty hdirty]
  rfl

theorem clean_of_ldc_isSome {text : List Nat} {l : List Nat}
    (h : leftmost_distinct_characters text = some l) : ∀ b ∈ text, b < 255 := by
  intro b hb
  by_contra hb'
  rw [ldc_dirty ⟨b, hb, by omega⟩] at h
  exact Option.noConfusion h

theorem ldcSpec_spec {text : List Nat} {p : Nat} (h : p ∈ ldcSpec text) :
    p < text.length ∧ ∀ j < p, text.getD j 0 ≠ text.getD p 0 := by
  obtain ⟨c, _, hp⟩ := mem_ldcSpec.mp h
  obtain ⟨h1, h2, h3⟩ := leftmostIdx?_spec hp
  exact ⟨h1, fun j hj => by rw [h2]; exact h3 j hj⟩

theorem getD_mem {text : List Nat} {j : Nat} (hj : j < text.length) :
    text.getD j 0 ∈ text := by
  rw [List.getD_eq_getElem text 0 hj]
  exact List.getElem_mem hj

theorem ldcSpec_covers {text : List Nat} {j : Nat} (hj : j < text.length)
    (hb : text.getD j 0 < 255) :
    ∃ p ∈ ldcSpec text, text.getD p 0 = text.getD j 0 := by
  obtain ⟨p, hp⟩ := leftmostIdx?_isSome (getD_mem hj)
  refine ⟨p, mem_ldcSpec.mpr ⟨text.getD j 0, hb, hp⟩, ?_⟩
  exact (leftmostIdx?_spec hp).2.1

theorem ldcSpec_ne_nil {text : List Nat} (hne : text ≠ [])
    (hclean : ∀ b ∈ text, b < 255) : ldcSpec text ≠ [] := by
  have hlen : 0 < text.length := List.length_pos.mpr hne
  have hb : text.getD 0 0 < 255 := hclean _ (getD_mem hlen)
  obtain ⟨p, hp, _⟩ := ldcSpec_covers hlen hb
  exact List.ne_nil_of_mem hp

/-! Properties of `successor_element` on clean texts. -/

theorem getD_drop' {text : List Nat} {s j : Nat} (h : j < (text.drop s).length) :
    (text.drop s).getD j 0 = text.getD (s + j) 0 := by
  rw [List.getD_eq_getElem _ 0 h, List.getElem_drop,
    List.getD_eq_getElem _ 0 (by have := h; simp at this; omega)]

theorem findSome?_first {α β : Type} (f : α → Option β) {R : α → α → Prop}
    {l : List α} {b : β} (h : l.findSome? f = some b) (hpw : l.Pairwise R) :
    ∃ a ∈ l, f a = some b ∧ ∀ a' ∈ l, f a' ≠ none → a' = a ∨ R a a' := by
  induction l with
  | nil => rw [List.findSome?_nil] at h; exact Option.noConfusion h
  | cons x t ih =>
    rw [List.pairwise_cons] at hpw
    rw [List.findSome?_cons] at h
    cases hfx : f x with
    | some b' =>
      rw [hfx] at h
      have hb : some b' = some b := h
      refine ⟨x, by simp, by rw [hfx, hb], ?_⟩
      intro a' ha' _
      rcases List.mem_cons.mp ha' with ha' | ha'
      · exact Or.inl ha'
      · exact Or.inr (hpw.1 a' ha')
    | none =>
      rw [hfx] at h
      obtain ⟨a, ha, hfa, hfirst⟩ := ih h hpw.2
      refine ⟨a, by simp [ha], hfa, ?_⟩
      intro a' ha' hne
      rcases List.mem_cons.mp ha' with ha' | ha'
      · exact absurd (ha' ▸ hfx) hne
      · exact hfirst a' ha' hne

theorem successor_not_panic {text : List Nat} {start value : Nat}
    (hclean : ∀ b ∈ text, b < 255) :
    ∃ r, successor_element text start value = some r := by
  unfold successor_element
  by_cases hs : start ≥ text.length
  · rw [if_pos hs]; exact ⟨none, rfl⟩
  · rw [if_neg hs]
    have : ∀ b ∈ text.drop start, b < 255 :=
      fun b hb => hclean b (List.drop_subset start text hb)
    rw [ldc_clean this, Option.map_some']
    exact ⟨_, rfl⟩

theorem successor_eq_some {text : List Nat} {start value i : Nat}
    (hclean : ∀ b ∈ text, b < 255)
    (h : successor_element text start value = some (some i)) :
    start ≤ i ∧ i < text.length ∧ value ≤ text.getD i 0 ∧
      (∀ j, start ≤ j → j < i → text.getD j 0 ≠ text.getD i 0) ∧
      (∀ j, start ≤ j → j < text.length → value ≤ text.getD j 0 →
        text.getD i 0 ≤ text.getD j 0) := by
  unfold successor_element at h
  by_cases hs : start ≥ text.length
  · rw [if_pos hs] at h
    exact absurd (Option.some.inj h) (by simp)
  · rw [if_neg hs] at h
    have hcleand : ∀ b ∈ text.drop start, b < 255 :=
      fun b hb => hclean b (List.drop_subset start text hb)
    rw [ldc_clean hcleand, Option.map_some'] at h
    have h' := Option.some.inj h
    obtain ⟨v, hv, hfv, hfirst⟩ :=
      findSome?_first _ h' (pairwise_ldcSpec (text.drop start))
    have hvlen : v < (text.drop start).length := (ldcSpec_spec hv).1
    have hvlen' : start + v < text.length := by
      have := hvlen; simp at this; omega
    have hfv' : value ≤ text.getD (start + v) 0 ∧ i = start + v := by
      by_cases hcmp : value ≤ text.getD (start + v) 0
      · rw [if_pos hcmp] at hfv
        exact ⟨hcmp, (Option.some.inj hfv).symm⟩
      · rw [if_neg hcmp] at hfv
        exact Option.noConfusion hfv
    obtain ⟨hcmp, rfl⟩ := hfv'
    refine ⟨by omega, hvlen', hcmp, ?_, ?_⟩
    · intro j hj1 hj2
      have hj' : j - start < v := by omega
      have := (ldcSpec_spec hv).2 (j - start) hj'
      rw [getD_drop' hvlen, getD_drop' (by omega)] at this
      have hjeq : start + (j - start) = j := by omega
      rw [hjeq] at this
      exact this
    · intro j hj1 hj2 hj3
      have hjd : j - start < (text.drop start).length := by simp; omega
      have hjb : (text.drop start).getD (j - start) 0 < 255 :=
        hcleand _ (getD_mem hjd)
      obtain ⟨p, hp, hpb⟩ := ldcSpec_covers hjd hjb
      have hplen : p < (text.drop start).length := (ldcSpec_spec hp).1
      have hpb' : text.getD (start + p) 0 = text.getD j 0 := by
        rw [getD_drop' hplen, getD_drop' hjd] at hpb
        rwa [Nat.add_sub_cancel' hj1] at hpb
      have hfp : ¬ ((fun v => if value ≤ text.getD (start + v) 0
          then some (start + v) else none) p = none) := by
        show ¬ ((if value ≤ text.getD (start + p) 0
          then some (start + p) else none) = none)
        rw [hpb', if_pos hj3]
        exact Option.noConfusion
      rcases hfirst p hp hfp with rfl | hlt
      · exact le_of_eq hpb'
      · rw [getD_drop' hvlen, getD_drop' hplen, hpb'] at hlt
        omega

theorem successor_eq_none {text : List Nat} {start value : Nat}
    (hclean : ∀ b ∈ text, b < 255) :
    successor_element text start value = some none ↔
      (∀ j, start ≤ j → j < text.length → text.getD j 0 < value) := by
  unfold successor_element
  by_cases hs : start ≥ text.length
  · rw [if_pos hs]
    simp only [true_iff]
    intro j hj1 hj2
    omega
  · rw [if_neg hs]
    have hcleand : ∀ b ∈ text.drop start, b < 255 :=
      fun b hb => hclean b (List.drop_subset start text hb)
    rw [ldc_clean hcleand, Option.map_some']
    constructor
    · intro h j hj1 hj2
      have h' := Option.some.inj h
      rw [List.findSome?_eq_none] at h'
      have hjd : j - start < (text.drop start).length := by simp; omega
      have hjb : (text.drop start).getD (j - start) 0 < 255 :=
        hcleand _ (getD_mem hjd)
      obtain ⟨p, hp, hpb⟩ := ldcSpec_covers hjd hjb
      have hthis : (if value ≤ text.getD (start + p) 0
          then some (start + p) else none) = none := h' p hp
      by_cases hcmp : value ≤ text.getD (start + p) 0
      · rw [if_pos hcmp] at hthis; exact Option.noConfusion hthis
      · have hplen : p < (text.drop start).length := (ldcSpec_spec hp).1
        rw [getD_drop' hjd] at hpb
        have hjeq : start + (j - start) = j := by omega
        rw [hjeq] at hpb
        rw [getD_drop' hplen] at hpb
        omega
    · intro h
      congr 1
      rw [List.findSome?_eq_none]
      intro v hv
      have hvlen : v < (text.drop start).length := (ldcSpec_spec hv).1
      have hvlen' : start + v < text.length := by
        have := hvlen; simp at this; omega
      rw [if_neg (by have := h (start + v) (by omega) hvlen'; omega)]

/-! Lexicographic comparison and Lyndon words. -/

/-- Strict lexicographic comparison witnessed by a position: the two lists
agree up to position `q` (which both have) and differ there. -/
def LexRel (u v : List Nat) : Prop :=
  ∃ q, q < u.length ∧ q < v.length ∧ u.take q = v.take q ∧
    u.getD q 0 < v.getD q 0

/-- Lyndon words characterised by suffixes: strictly smaller than each of
the proper nonempty suffixes, with a genuine differing position. -/
def LyndonS (w : List Nat) : Prop :=
  w ≠ [] ∧ ∀ t, 0 < t → t < w.length → LexRel w (w.drop t)

/-- Lyndon words characterised by rotations, as in the specification:
strictly lexicographically smaller than every proper rotation. -/
def LyndonWord (w : List Nat) : Prop :=
  w ≠ [] ∧ ∀ t, 0 < t → t < w.length → List.Lex (· < ·) w (w.drop t ++ w.take t)

/-- Concatenation of `k` copies of `L`. -/
def repeatL (L : List Nat) : Nat → List Nat
  | 0 => []
  | k + 1 => L ++ repeatL L k

theorem getD_take' {l : List Nat} {q j : Nat} (hj : j < q) (hjl : j < l.length) :
    (l.take q).getD j 0 = l.getD j 0 := by
  rw [List.getD_eq_getElem _ 0 (by rw [List.length_take]; omega),
    List.getElem_take, List.getD_eq_getElem _ 0 hjl]

theorem getD_of_take_eq {u v : List Nat} {q j : Nat} (h : u.take q = v.take q)
    (hj : j < q) (hju : j < u.length) (hjv : j < v.length) :
    u.getD j 0 = v.getD j 0 := by
  rw [← getD_take' hj hju, h, getD_take' hj hjv]

theorem take_eq_of_take_eq {u v : List Nat} {q m : Nat} (hm : m ≤ q)
    (h : u.take q = v.take q) : u.take m = v.take m := by
  have : (u.take q).take m = (v.take q).take m := by rw [h]
  rwa [List.take_take, List.take_take, Nat.min_eq_left hm] at this

theorem lex_of_agree_lt : ∀ (q : Nat) (u v : List Nat), u.take q = v.take q →
    q < u.length → q < v.length → u.getD q 0 < v.getD q 0 →
    List.Lex (· < ·) u v := by
  intro q
  induction q with
  | zero =>
    intro u v _ hu hv hlt
    match u, v with
    | a :: u', b :: v' =>
      exact List.Lex.rel (by simpa using hlt)
  | succ q ih =>
    intro u v htake hu hv hlt
    match u, v with
    | a :: u', b :: v' =>
      rw [List.take_succ_cons, List.take_succ_cons] at htake
      have hab : a = b := (List.cons.injEq _ _ _ _ ▸ htake).1
      have htake' : u'.take q = v'.take q := (List.cons.injEq _ _ _ _ ▸ htake).2
      subst hab
      exact List.Lex.cons (ih u' v' htake' (by simpa using hu) (by simpa using hv)
        (by simpa using hlt))

theorem LexRel.lex {u v : List Nat} (h : LexRel u v) : List.Lex (· < ·) u v := by
  obtain ⟨q, hqu, hqv, htake, hlt⟩ := h
  exact lex_of_agree_lt q u v htake hqu hqv hlt

theorem LexRel.lex_append {u v : List Nat} (h : LexRel u v) (z : List Nat) :
    List.Lex (· < ·) u (v ++ z) := by
  obtain ⟨q, hqu, hqv, htake, hlt⟩ := h
  apply lex_of_agree_lt q
  · rw [List.take_append_of_le_length (by omega), htake]
  · exact hqu
  · rw [List.length_append]; omega
  · rwa [List.getD_append _ _ _ _ hqv]

theorem LyndonS.lyndonWord {w : List Nat} (h : LyndonS w) : LyndonWord w :=
  ⟨h.1, fun t ht1 ht2 => (h.2 t ht1 ht2).lex_append _⟩

theorem lyndonS_singleton (b : Nat) : LyndonS [b] := by
  refine ⟨by simp, fun t ht1 ht2 => ?_⟩
  simp at ht2
  omega

theorem LyndonS.length_pos {w : List Nat} (h : LyndonS w) : 0 < w.length :=
  List.length_pos.mpr h.1

theorem LyndonS.getD_zero_le {L : List Nat} (h : LyndonS L) :
    ∀ j, j < L.length → L.getD 0 0 ≤ L.getD j 0 := by
  intro j hj
  rcases Nat.eq_zero_or_pos j with rfl | hj0
  · exact Nat.le_refl _
  · obtain ⟨q, hq1, hq2, htake, hlt⟩ := h.2 j hj0 hj
    rcases Nat.eq_zero_or_pos q with rfl | hq0
    · have h1 : (L.drop j).getD 0 0 = L.getD j 0 := by
        simpa using getD_drop' hq2
      rw [h1] at hlt
      omega
    · have h0 : L.getD 0 0 = (L.drop j).getD 0 0 :=
        getD_of_take_eq htake hq0 (by omega) (by omega)
      have h1 : (L.drop j).getD 0 0 = L.getD j 0 := by
        simpa using getD_drop' (show (0 : Nat) < (L.drop j).length by omega)
      rw [h1] at h0
      exact Nat.le_of_eq h0

/-! Arithmetic of `repeatL`. -/

theorem repeatL_length (L : List Nat) (k : Nat) :
    (repeatL L k).length = k * L.length := by
  induction k with
  | zero => simp [repeatL]
  | succ k ih =>
    show (L ++ repeatL L k).length = _
    rw [List.length_append, ih, Nat.succ_mul]
    omega

theorem repeatL_add (L : List Nat) (a b : Nat) :
    repeatL L (a + b) = repeatL L a ++ repeatL L b := by
  induction a with
  | zero => simp [repeatL]
  | succ a ih =>
    have h1 : a + 1 + b = (a + b) + 1 := by omega
    rw [h1]
    show L ++ repeatL L (a + b) = (L ++ repeatL L a) ++ repeatL L b
    rw [ih, List.append_assoc]

theorem repeatL_one (L : List Nat) : repeatL L 1 = L := by
  show L ++ [] = L
  rw [List.append_nil]

theorem repeatL_succ_right (L : List Nat) (k : Nat) :
    repeatL L (k + 1) = repeatL L k ++ L := by
  rw [repeatL_add, repeatL_one]

theorem repeatL_cons (L : List Nat) {k : Nat} (hk : 1 ≤ k) :
    repeatL L k = L ++ repeatL L (k - 1) := by
  have : k = (k - 1) + 1 := by omega
  rw [this]
  rfl

theorem drop_mul_repeatL (L : List Nat) (z : List Nat) :
    ∀ j k, j ≤ k → (repeatL L k ++ z).drop (j * L.length) =
      repeatL L (k - j) ++ z := by
  intro j
  induction j with
  | zero => intro k _; simp
  | succ j ih =>
    intro k hk
    have hk1 : 1 ≤ k := by omega
    rw [repeatL_cons L hk1, List.append_assoc]
    have harith : (j + 1) * L.length = L.length + j * L.length := by ring
    rw [harith, ← List.drop_drop, List.drop_left]
    rw [ih (k - 1) (by omega)]
    congr 2
    omega

/-! The Duval extension step: appending a character strictly above the
predicted one to a power-of-Lyndon prefix yields a Lyndon word.  The word
is `repeatL L k ++ (L.take r ++ [x])` throughout; the three helper lemmas
treat the suffix starting at a block boundary `j * L.length`, inside a
block, and inside the final partial block. -/

theorem lexRel_ext_boundary {L : List Nat} {k r x : Nat} (hL : LyndonS L)
    (hr : r < L.length) (hx : L.getD r 0 < x) {j : Nat}
    (hj1 : 1 ≤ j) (hj2 : j ≤ k) :
    LexRel (repeatL L k ++ (L.take r ++ [x]))
      ((repeatL L k ++ (L.take r ++ [x])).drop (j * L.length)) := by
  have hp : 0 < L.length := hL.length_pos
  have hlentr : (L.take r).length = r := by rw [List.length_take]; omega
  have hdrop : (repeatL L k ++ (L.take r ++ [x])).drop (j * L.length)
      = repeatL L (k - j) ++ (L.take r ++ [x]) :=
    drop_mul_repeatL L _ j k hj2
  have hsplit : repeatL L k ++ (L.take r ++ [x])
      = repeatL L (k - j) ++ (repeatL L j ++ (L.take r ++ [x])) := by
    have h0 : repeatL L k = repeatL L (k - j) ++ repeatL L j := by
      rw [← repeatL_add]
      congr 1
      omega
    rw [h0, List.append_assoc]
  have hmul : (k - j) * L.length + L.length ≤ k * L.length := by
    have h1 : (k - j) + 1 ≤ k := by omega
    calc (k - j) * L.length + L.length = ((k - j) + 1) * L.length := by ring
      _ ≤ k * L.length := Nat.mul_le_mul_right _ h1
  refine ⟨(k - j) * L.length + r, ?_, ?_, ?_, ?_⟩
  · rw [List.length_append, repeatL_length, List.length_append,
      hlentr, List.length_singleton]
    omega
  · rw [hdrop, List.length_append, repeatL_length, List.length_append,
      hlentr, List.length_singleton]
    omega
  · have h1 : (repeatL L (k - j) ++ (repeatL L j ++ (L.take r ++ [x]))).take
        ((k - j) * L.length + r) = repeatL L (k - j) ++ L.take r := by
      rw [← repeatL_length L (k - j), List.take_append]
      congr 1
      rw [repeatL_cons L hj1, List.append_assoc,
        List.take_append_of_le_length (le_of_lt hr)]
    have h2 : (repeatL L (k - j) ++ (L.take r ++ [x])).take
        ((k - j) * L.length + r) = repeatL L (k - j) ++ L.take r := by
      rw [← repeatL_length L (k - j), List.take_append]
      congr 1
      rw [List.take_append_of_le_length (by rw [hlentr]),
        List.take_take, Nat.min_self]
    rw [hdrop, h2, hsplit, h1]
  · have h1 : (repeatL L (k - j) ++ (repeatL L j ++ (L.take r ++ [x]))).getD
        ((k - j) * L.length + r) 0 = L.getD r 0 := by
      rw [List.getD_append_right _ _ _ _
        (show (repeatL L (k - j)).length ≤ (k - j) * L.length + r by
          rw [repeatL_length]; omega),
        repeatL_length, Nat.add_sub_cancel_left,
        repeatL_cons L hj1, List.append_assoc,
        List.getD_append _ _ _ _ hr]
    have h2 : (repeatL L (k - j) ++ (L.take r ++ [x])).getD
        ((k - j) * L.length + r) 0 = x := by
      rw [List.getD_append_right _ _ _ _
        (show (repeatL L (k - j)).length ≤ (k - j) * L.length + r by
          rw [repeatL_length]; omega),
        repeatL_length, Nat.add_sub_cancel_left,
        List.getD_append_right _ _ _ _ (by rw [hlentr]), hlentr, Nat.sub_self]
      rfl
    rw [hdrop, h2, hsplit, h1]
    exact hx

theorem lexRel_ext_inner {L : List Nat} {k r x : Nat} (hL : LyndonS L)
    (hr : r < L.length) {j u : Nat} (hj : j < k) (hu0 : 0 < u)
    (hup : u < L.length) :
    LexRel (repeatL L k ++ (L.take r ++ [x]))
      ((repeatL L k ++ (L.take r ++ [x])).drop (j * L.length + u)) := by
  have hp : 0 < L.length := hL.length_pos
  obtain ⟨q, hq1, hq2, htk, hlt⟩ := hL.2 u hu0 hup
  have hq2' : q < L.length - u := by rwa [List.length_drop] at hq2
  have hdrop : (repeatL L k ++ (L.take r ++ [x])).drop (j * L.length + u)
      = L.drop u ++ (repeatL L (k - j - 1) ++ (L.take r ++ [x])) := by
    rw [← List.drop_drop, drop_mul_repeatL L _ j k (le_of_lt hj),
      repeatL_cons L (by omega : 1 ≤ k - j), List.append_assoc,
      List.drop_append_of_le_length (le_of_lt hup)]
  rw [hdrop]
  refine ⟨q, ?_, ?_, ?_, ?_⟩
  · rw [List.length_append, repeatL_length]
    have : L.length ≤ k * L.length := Nat.le_mul_of_pos_left _ (by omega)
    omega
  · rw [List.length_append, List.length_drop]
    omega
  · have h1 : (repeatL L k ++ (L.take r ++ [x])).take q = L.take q := by
      rw [repeatL_cons L (by omega : 1 ≤ k), List.append_assoc,
        List.take_append_of_le_length (by omega : q ≤ L.length)]
    have h2 : (L.drop u ++ (repeatL L (k - j - 1) ++ (L.take r ++ [x]))).take q
        = (L.drop u).take q :=
      List.take_append_of_le_length (by rw [List.length_drop]; omega)
    rw [h1, h2, htk]
  · have h1 : (repeatL L k ++ (L.take r ++ [x])).getD q 0 = L.getD q 0 := by
      rw [repeatL_cons L (by omega : 1 ≤ k), List.append_assoc,
        List.getD_append _ _ _ _ (by omega)]
    have h2 : (L.drop u ++ (repeatL L (k - j - 1) ++ (L.take r ++ [x]))).getD q 0
        = (L.drop u).getD q 0 :=
      List.getD_append _ _ _ _ (by rw [List.length_drop]; omega)
    rw [h1, h2]
    exact hlt

theorem lexRel_ext_tail {L : List Nat} {k r x : Nat} (hL : LyndonS L)
    (hk : 1 ≤ k) (hr : r < L.length) (hx : L.getD r 0 < x) {u : Nat}
    (hu0 : 0 < u) (hur : u ≤ r) :
    LexRel (repeatL L k ++ (L.take r ++ [x]))
      ((repeatL L k ++ (L.take r ++ [x])).drop (k * L.length + u)) := by
  have hp : 0 < L.length := hL.length_pos
  have hlentr : (L.take r).length = r := by rw [List.length_take]; omega
  have hdt : (L.take r).drop u = (L.drop u).take (r - u) := List.drop_take r u L
  have hlentd : ((L.drop u).take (r - u)).length = r - u := by
    rw [List.length_take, List.length_drop]
    omega
  have hdrop : (repeatL L k ++ (L.take r ++ [x])).drop (k * L.length + u)
      = (L.drop u).take (r - u) ++ [x] := by
    rw [← List.drop_drop, drop_mul_repeatL L _ k k (le_refl k), Nat.sub_self]
    show (L.take r ++ [x]).drop u = _
    rw [List.drop_append_of_le_length (by rw [hlentr]; omega), hdt]
  obtain ⟨q, hq1, hq2, htk, hlt⟩ := hL.2 u hu0 (by omega : u < L.length)
  have hq2' : q < L.length - u := by rwa [List.length_drop] at hq2
  have hwtake : ∀ m, m ≤ L.length →
      (repeatL L k ++ (L.take r ++ [x])).take m = L.take m := by
    intro m hm
    rw [repeatL_cons L hk, List.append_assoc, List.take_append_of_le_length hm]
  have hwget : ∀ m, m < L.length →
      (repeatL L k ++ (L.take r ++ [x])).getD m 0 = L.getD m 0 := by
    intro m hm
    rw [repeatL_cons L hk, List.append_assoc, List.getD_append _ _ _ _ hm]
  have hwlen : k * L.length + (r + 1) ≤ (repeatL L k ++ (L.take r ++ [x])).length := by
    rw [List.length_append, repeatL_length, List.length_append, hlentr,
      List.length_singleton]
  rw [hdrop]
  by_cases hqcase : q < r - u
  · refine ⟨q, ?_, ?_, ?_, ?_⟩
    · omega
    · rw [List.length_append, hlentd, List.length_singleton]
      omega
    · rw [hwtake q (by omega),
        List.take_append_of_le_length (by rw [hlentd]; omega),
        List.take_take, Nat.min_eq_left (by omega : q ≤ r - u), htk]
    · rw [hwget q (by omega), List.getD_append _ _ _ _ (by rw [hlentd]; omega),
        getD_take' hqcase (by rw [List.length_drop]; omega)]
      exact hlt
  · have hdrople : L.getD (r - u) 0 < x := by
      by_cases hqru : q = r - u
      · have hget : (L.drop u).getD q 0 = L.getD r 0 := by
          have h1 := @getD_drop' L u q (by rw [List.length_drop]; omega)
          rw [h1]
          congr 1
          omega
        rw [hget] at hlt
        rw [← hqru]
        omega
      · have hru_lt : r - u < q := by omega
        have h0 : L.getD (r - u) 0 = (L.drop u).getD (r - u) 0 :=
          getD_of_take_eq htk hru_lt (by omega) (by rw [List.length_drop]; omega)
        have h1 : (L.drop u).getD (r - u) 0 = L.getD r 0 := by
          have h2 := @getD_drop' L u (r - u) (by rw [List.length_drop]; omega)
          rw [h2]
          congr 1
          omega
        rw [h0, h1]
        exact hx
    refine ⟨r - u, ?_, ?_, ?_, ?_⟩
    · omega
    · rw [List.length_append, hlentd, List.length_singleton]
      omega
    · rw [hwtake (r - u) (by omega),
        List.take_left' hlentd,
        take_eq_of_take_eq (by omega : r - u ≤ q) htk]
    · rw [hwget (r - u) (by omega),
        List.getD_append_right _ _ _ _ (by rw [hlentd]), hlentd, Nat.sub_self]
      exact hdrople

theorem lyndonS_ext {L : List Nat} {k r x : Nat} (hL : LyndonS L) (hk : 1 ≤ k)
    (hr : r < L.length) (hx : L.getD r 0 < x) :
    LyndonS (repeatL L k ++ (L.take r ++ [x])) := by
  have hp : 0 < L.length := hL.length_pos
  have hlentr : (L.take r).length = r := by rw [List.length_take]; omega
  have hlenw : (repeatL L k ++ (L.take r ++ [x])).length = k * L.length + (r + 1) := by
    rw [List.length_append, repeatL_length, List.length_append, hlentr,
      List.length_singleton]
  constructor
  · intro hnil
    have := congrArg List.length hnil
    rw [hlenw] at this
    simp at this
  · intro t ht0 htlen
    rw [hlenw] at htlen
    rcases Nat.lt_trichotomy t (k * L.length) with hlt | heq | hgt
    · have hu := Nat.div_add_mod t L.length
      have hjk : t / L.length < k := (Nat.div_lt_iff_lt_mul hp).mpr hlt
      by_cases hu0 : t % L.length = 0
      · have hj1 : 1 ≤ t / L.length := by
          rcases Nat.eq_zero_or_pos (t / L.length) with hz | hpos
          · rw [hz, Nat.mul_zero] at hu
            omega
          · exact hpos
        have hc := Nat.mul_comm L.length (t / L.length)
        have ht' : t = (t / L.length) * L.length := by omega
        rw [ht']
        exact lexRel_ext_boundary hL hr hx hj1 (le_of_lt hjk)
      · have hc := Nat.mul_comm L.length (t / L.length)
        have ht' : t = (t / L.length) * L.length + t % L.length := by omega
        rw [ht']
        exact lexRel_ext_inner hL hr hjk (by omega) (Nat.mod_lt _ hp)
    · rw [heq]
      have : k * L.length = k * L.length := rfl
      exact lexRel_ext_boundary hL hr hx hk (le_refl k)
    · have ht' : t = k * L.length + (t - k * L.length) := by omega
      rw [ht']
      exact lexRel_ext_tail hL hk hr hx (by omega) (by omega)

/-! The search invariant. -/

/-- Bytes of a stack in bottom-first (text) order. -/
def wordOf (text : List Nat) (st : List StackElement) : List Nat :=
  st.reverse.map fun e => text.getD e.text_pos 0

/-- No byte value in the interval `[lo, hi)` occurs in the text. -/
def GapFree (text : List Nat) (lo hi : Nat) : Prop :=
  ∀ v ∈ text, ¬ (lo ≤ v ∧ v < hi)

/-- Structural shape of a (suffix of the) stack: its word is a power of a
Lyndon word `L` whose length is the period recorded at the top, followed
by a proper prefix of `L`. -/
def StructOK (text : List Nat) (st : List StackElement) : Prop :=
  ∃ L k r, LyndonS L ∧ 1 ≤ k ∧ r < L.length ∧
    wordOf text st = repeatL L k ++ L.take r ∧
    L.length = (st.headD ⟨0, 0⟩).period

/-- What the best (recorded) stack always satisfies: positions strictly
decreasing top-first and in bounds, and a Lyndon word. -/
def GoodStack (text : List Nat) (st : List StackElement) : Prop :=
  st ≠ [] ∧ st.Chain' (fun a b => b.text_pos < a.text_pos) ∧
    (∀ e ∈ st, e.text_pos < text.length) ∧ LyndonS (wordOf text st)

/-- The reachability invariant of the search loop. -/
structure Inv (text : List Nat) (full : List Nat) (s : SearchState) : Prop where
  chain : s.stack.Chain' fun a b => b.text_pos < a.text_pos
  bounded : ∀ e ∈ s.stack, e.text_pos < text.length
  struct : ∀ m, m < s.stack.length → StructOK text (s.stack.drop m)
  growth : ∀ m, m + 1 < s.stack.length →
    immatureOf text (s.stack.drop (m + 1)) ≤
      text.getD ((s.stack.getD m ⟨0, 0⟩).text_pos) 0
  label_le : s.lastchildedgelabel ≤ 255
  upinv : s.upwardmove = true → s.stack ≠ [] →
    immatureOf text s.stack ≤ s.lastchildedgelabel ∨
      GapFree text s.lastchildedgelabel (immatureOf text s.stack)
  seedsuf : ∃ idx, idx ≤ full.length ∧ s.seeds = full.drop idx
  bottomseed : s.stack ≠ [] → ∃ idx, idx < full.length ∧
    s.seeds = full.drop (idx + 1) ∧
    s.stack.getLast? = some ⟨full.getD idx 0, 1⟩
  betweeninv : s.stack = [] → s.upwardmove = true → ∀ q rest,
    s.seeds = q :: rest → GapFree text s.lastchildedgelabel (text.getD q 0)
  bestempty : s.best = [] → s.seeds = full
  bestgood : s.best ≠ [] → GoodStack text s.best

theorem wordOf_length (text : List Nat) (st : List StackElement) :
    (wordOf text st).length = st.length := by
  unfold wordOf
  rw [List.length_map, List.length_reverse]

theorem wordOf_cons (text : List Nat) (e : StackElement)
    (st : List StackElement) :
    wordOf text (e :: st) = wordOf text st ++ [text.getD e.text_pos 0] := by
  unfold wordOf
  rw [List.reverse_cons, List.map_append]
  rfl

theorem wordOf_getD {text : List Nat} {st : List StackElement} {j : Nat}
    (hj : j < st.length) :
    (wordOf text st).getD j 0 =
      text.getD ((st.getD (st.length - 1 - j) ⟨0, 0⟩).text_pos) 0 := by
  have hj' : j < (wordOf text st).length := by rwa [wordOf_length]
  unfold wordOf
  rw [List.getD_eq_getElem _ 0 (show j <
      (st.reverse.map fun e => text.getD e.text_pos 0).length by
    rw [List.length_map, List.length_reverse]; exact hj)]
  rw [List.getElem_map, List.getElem_reverse,
    List.getD_eq_getElem st ⟨0, 0⟩ (by omega)]

theorem getD_le_254 {text : List Nat} (hclean : ∀ b ∈ text, b < 255)
    (j : Nat) : text.getD j 0 ≤ 254 := by
  by_cases hj : j < text.length
  · have := hclean _ (getD_mem hj)
    omega
  · rw [List.getD_eq_default _ _ (by omega)]
    omega

theorem take_succ_getD {L : List Nat} {r : Nat} (hr : r < L.length) :
    L.take r ++ [L.getD r 0] = L.take (r + 1) := by
  rw [List.take_succ, List.getElem?_eq_getElem hr,
    List.getD_eq_getElem _ 0 hr]
  rfl

theorem repeatL_take_getD {L : List Nat} {k r : Nat} (hk : 1 ≤ k)
    (hr : r < L.length) :
    (repeatL L k ++ L.take r).getD ((k - 1) * L.length + r) 0 = L.getD r 0 := by
  have hsplit : repeatL L k = repeatL L (k - 1) ++ L := by
    rw [← repeatL_succ_right]
    congr 1
    omega
  rw [hsplit, List.append_assoc,
    List.getD_append_right _ _ _ _
      (show (repeatL L (k - 1)).length ≤ (k - 1) * L.length + r by
        rw [repeatL_length]; omega),
    repeatL_length, Nat.add_sub_cancel_left, List.getD_append _ _ _ _ hr]

theorem immature_of_struct {text : List Nat} {st : List StackElement}
    {L : List Nat} {k r : Nat} (hne : st ≠ []) (hLS : LyndonS L) (hk : 1 ≤ k)
    (hr : r < L.length) (hword : wordOf text st = repeatL L k ++ L.take r)
    (hper : L.length = (st.headD ⟨0, 0⟩).period) :
    immatureOf text st = L.getD r 0 := by
  have hp : 0 < L.length := hLS.length_pos
  have hlen : st.length = k * L.length + r := by
    have h1 := congrArg List.length hword
    rw [wordOf_length, List.length_append, repeatL_length, List.length_take,
      Nat.min_eq_left (le_of_lt hr)] at h1
    exact h1
  have hplen : L.length ≤ st.length := by
    have : L.length ≤ k * L.length := Nat.le_mul_of_pos_left _ (by omega)
    omega
  have hidx : st.length - 1 - (st.length - L.length) = L.length - 1 := by
    omega
  have hwg := @wordOf_getD text st (st.length - L.length) (by omega)
  rw [hidx] at hwg
  have hrg : (wordOf text st).getD (st.length - L.length) 0 = L.getD r 0 := by
    rw [hword]
    have harith : st.length - L.length = (k - 1) * L.length + r := by
      have h2 : k * L.length = (k - 1) * L.length + L.length := by
        have : k = (k - 1) + 1 := by omega
        calc k * L.length = ((k - 1) + 1) * L.length := by rw [← this]
          _ = (k - 1) * L.length + L.length := by ring
      omega
    rw [harith]
    exact repeatL_take_getD hk hr
  unfold immatureOf
  rw [← hper]
  rw [hwg] at hrg
  exact hrg

theorem drop_eq_cons {l : List Nat} {n : Nat} {q : Nat} {rest : List Nat}
    (h : l.drop n = q :: rest) :
    n < l.length ∧ q = l.getD n 0 ∧ rest = l.drop (n + 1) := by
  have hlen : n < l.length := by
    by_contra h'
    rw [List.drop_eq_nil_of_le (by omega)] at h
    exact List.noConfusion h
  refine ⟨hlen, ?_, ?_⟩
  · have h0 : (l.drop n).getD 0 0 = q := by rw [h]; rfl
    rw [getD_drop' (by rw [List.length_drop]; omega)] at h0
    simpa using h0.symm
  · have ht := congrArg List.tail h
    rw [List.tail_drop] at ht
    simpa using ht.symm

theorem ldcSpec_byte_mono {text : List Nat} {i j : Nat} (hij : i < j)
    (hj : j < (ldcSpec text).length) :
    text.getD ((ldcSpec text).getD i 0) 0 <
      text.getD ((ldcSpec text).getD j 0) 0 := by
  have hpw := pairwise_ldcSpec text
  rw [List.pairwise_iff_getElem] at hpw
  have := hpw i j (by omega) hj hij
  rw [List.getD_eq_getElem (ldcSpec text) 0 (show i < (ldcSpec text).length
    by omega), List.getD_eq_getElem (ldcSpec text) 0 hj]
  exact this

theorem ldcSpec_getD_mem {text : List Nat} {idx : Nat}
    (hidx : idx < (ldcSpec text).length) :
    (ldcSpec text).getD idx 0 ∈ ldcSpec text := by
  rw [List.getD_eq_getElem _ 0 hidx]
  exact List.getElem_mem hidx

theorem ldcSpec_gap {text : List Nat} (hclean : ∀ b ∈ text, b < 255)
    {idx : Nat} (hidx : idx + 1 < (ldcSpec text).length) :
    GapFree text (text.getD ((ldcSpec text).getD idx 0) 0 + 1)
      (text.getD ((ldcSpec text).getD (idx + 1) 0) 0) := by
  rintro v hv ⟨h1, h2⟩
  obtain ⟨j, hj, hjv⟩ := List.mem_iff_getElem.mp hv
  have hjv' : text.getD j 0 = v := by rw [List.getD_eq_getElem _ 0 hj, hjv]
  obtain ⟨p, hp, hpb⟩ := ldcSpec_covers hj
    (by rw [hjv']; exact hclean v hv)
  obtain ⟨m, hm, hmp⟩ := List.mem_iff_getElem.mp hp
  have hmg : (ldcSpec text).getD m 0 = p := by
    rw [List.getD_eq_getElem _ 0 hm, hmp]
  have hmv : text.getD ((ldcSpec text).getD m 0) 0 = v := by
    rw [hmg, hpb, hjv']
  rcases Nat.lt_or_ge m (idx + 1) with hmi | hmi
  · have hle : text.getD ((ldcSpec text).getD m 0) 0 ≤
        text.getD ((ldcSpec text).getD idx 0) 0 := by
      rcases Nat.lt_or_ge m idx with hlt | hge
      · exact le_of_lt (ldcSpec_byte_mono hlt (by omega))
      · have : m = idx := by omega
        rw [this]
    omega
  · have hge : text.getD ((ldcSpec text).getD (idx + 1) 0) 0 ≤
        text.getD ((ldcSpec text).getD m 0) 0 := by
      rcases Nat.lt_or_ge (idx + 1) m with hlt | hge'
      · exact le_of_lt (ldcSpec_byte_mono hlt hm)
      · have : m = idx + 1 := by omega
        rw [this]
    omega

theorem push_facts {text : List Nat} {s : SearchState} {top : StackElement}
    {below : List StackElement} {i : Nat} (hclean : ∀ b ∈ text, b < 255)
    (hstack : s.stack = top :: below)
    (hup : s.upwardmove = true → s.stack ≠ [] →
      immatureOf text s.stack ≤ s.lastchildedgelabel ∨
        GapFree text s.lastchildedgelabel (immatureOf text s.stack))
    (hsucc : successor_element text (top.text_pos + 1)
      (if s.upwardmove then s.lastchildedgelabel
        else immatureOf text (top :: below)) = some (some i)) :
    immatureOf text (top :: below) ≤ text.getD i 0 ∧
      top.text_pos < i ∧ i < text.length := by
  obtain ⟨hs1, hs2, hs3, _, _⟩ := successor_eq_some hclean hsucc
  refine ⟨?_, by omega, hs2⟩
  cases hupc : s.upwardmove with
  | false =>
    rw [hupc, if_neg (by simp)] at hsucc
    obtain ⟨_, _, hs3', _, _⟩ := successor_eq_some hclean hsucc
    exact hs3'
  | true =>
    rw [hupc, if_pos rfl] at hsucc
    obtain ⟨_, _, hs3', _, _⟩ := successor_eq_some hclean hsucc
    rcases hup hupc (by rw [hstack]; simp) with hle | hgap
    · rw [hstack] at hle
      omega
    · rw [hstack] at hgap
      have hvi : text.getD i 0 ∈ text := getD_mem hs2
      have := hgap _ hvi
      by_contra hcon
      exact this ⟨hs3', by omega⟩

theorem wordOf_singleton (text : List Nat) (q per : Nat) :
    wordOf text [⟨q, per⟩] = [text.getD q 0] := rfl

theorem structOK_singleton (text : List Nat) (q : Nat) :
    StructOK text [⟨q, 1⟩] := by
  refine ⟨[text.getD q 0], 1, 0, lyndonS_singleton _, le_refl 1, by simp, ?_, by simp⟩
  rw [wordOf_singleton]
  rfl

theorem inv_seed {text full : List Nat} {s : SearchState} {q : Nat}
    {rest : List Nat} (hclean : ∀ b ∈ text, b < 255) (hfull : full = ldcSpec text)
    (hinv : Inv text full s) (hstack : s.stack = []) (hseeds : s.seeds = q :: rest) :
    Inv text full { s with
      stack := [⟨q, 1⟩]
      best := if s.best.isEmpty then [⟨q, 1⟩] else s.best
      seeds := rest } := by
  obtain ⟨idx, hidx, hdrop⟩ := hinv.seedsuf
  rw [hseeds] at hdrop
  obtain ⟨hidxlt, hq, hrest⟩ := drop_eq_cons hdrop.symm
  have hqmem : q ∈ full := by
    rw [hq, List.getD_eq_getElem full 0 hidxlt]
    exact List.getElem_mem hidxlt
  have hqlt : q < text.length := by
    rw [hfull] at hqmem
    exact (ldcSpec_spec hqmem).1
  constructor
  case chain => exact List.chain'_singleton _
  case bounded =>
    intro e he
    have : e = ⟨q, 1⟩ := by simpa using he
    rw [this]
    exact hqlt
  case struct =>
    intro m hm
    have hm0 : m = 0 := by simpa using hm
    rw [hm0]
    exact structOK_singleton text q
  case growth =>
    intro m hm
    simp at hm
  case label_le => exact hinv.label_le
  case upinv =>
    intro hup _
    right
    show GapFree text s.lastchildedgelabel (immatureOf text [⟨q, 1⟩])
    have himm : immatureOf text [⟨q, 1⟩] = text.getD q 0 := rfl
    rw [himm]
    exact hinv.betweeninv hstack hup q rest hseeds
  case seedsuf =>
    exact ⟨idx + 1, by omega, hrest⟩
  case bottomseed =>
    intro _
    refine ⟨idx, hidxlt, hrest, ?_⟩
    show List.getLast? [(⟨q, 1⟩ : StackElement)] = some ⟨full.getD idx 0, 1⟩
    rw [List.getLast?_singleton, hq]
  case betweeninv =>
    intro h
    exact absurd h (by simp)
  case bestempty =>
    intro hb
    exfalso
    have hb' : (if s.best.isEmpty then [(⟨q, 1⟩ : StackElement)]
        else s.best) = [] := hb
    cases hbe : s.best.isEmpty with
    | true =>
      rw [hbe, if_pos rfl] at hb'
      exact List.noConfusion hb'
    | false =>
      rw [hbe, if_neg (by simp)] at hb'
      rw [hb'] at hbe
      simp at hbe
  case bestgood =>
    intro _
    show GoodStack text (if s.best.isEmpty then [⟨q, 1⟩] else s.best)
    cases hbe : s.best.isEmpty with
    | true =>
      rw [if_pos rfl]
      refine ⟨by simp, List.chain'_singleton _, ?_, ?_⟩
      · intro e he
        have : e = ⟨q, 1⟩ := by simpa using he
        rw [this]
        exact hqlt
      · rw [wordOf_singleton]
        exact lyndonS_singleton _
    | false =>
      rw [if_neg (by simp)]
      exact hinv.bestgood (by simpa using hbe)

theorem inv_pop {text full : List Nat} {s : SearchState} {top : StackElement}
    {below : List StackElement} (hclean : ∀ b ∈ text, b < 255)
    (hfull : full = ldcSpec text) (hinv : Inv text full s)
    (hstack : s.stack = top :: below) :
    Inv text full { s with
      upwardmove := true
      lastchildedgelabel := text.getD top.text_pos 0 + 1
      stack := below } := by
  have hchain := hinv.chain
  rw [hstack] at hchain
  constructor
  case chain => exact hchain.tail
  case bounded =>
    intro e he
    exact hinv.bounded e (by rw [hstack]; exact List.mem_cons_of_mem _ he)
  case struct =>
    intro m hm
    have hm' : m < below.length := hm
    have h1 := hinv.struct (m + 1) (by rw [hstack]; simp; omega)
    rw [hstack] at h1
    exact h1
  case growth =>
    intro m hm
    have hm' : m + 1 < below.length := hm
    have h1 := hinv.growth (m + 1) (by rw [hstack]; simp; omega)
    rw [hstack] at h1
    exact h1
  case label_le =>
    have := getD_le_254 hclean top.text_pos
    show text.getD top.text_pos 0 + 1 ≤ 255
    omega
  case upinv =>
    intro _ hne
    left
    have hne' : below ≠ [] := hne
    have hlen : 1 < s.stack.length := by
      rw [hstack]
      have := List.length_pos.mpr hne'
      simp
      omega
    have h1 := hinv.growth 0 hlen
    rw [hstack] at h1
    show immatureOf text below ≤ text.getD top.text_pos 0 + 1
    have h2 : (top :: below).getD 0 ⟨0, 0⟩ = top := rfl
    rw [h2] at h1
    have h3 : (top :: below).drop 1 = below := rfl
    rw [h3] at h1
    omega
  case seedsuf => exact hinv.seedsuf
  case bottomseed =>
    intro hne
    have hne' : below ≠ [] := hne
    obtain ⟨idx, hidxlt, hseedseq, hlast⟩ :=
      hinv.bottomseed (by rw [hstack]; simp)
    refine ⟨idx, hidxlt, hseedseq, ?_⟩
    obtain ⟨b, l, rfl⟩ := List.exists_cons_of_ne_nil hne'
    rw [hstack, List.getLast?_cons_cons] at hlast
    exact hlast
  case betweeninv =>
    intro hbelow hupw q rest hseeds
    have hbelow' : below = [] := hbelow
    have hseeds' : s.seeds = q :: rest := hseeds
    obtain ⟨idx, hidxlt, hseedseq, hlast⟩ :=
      hinv.bottomseed (by rw [hstack]; simp)
    have htop : top = ⟨full.getD idx 0, 1⟩ := by
      rw [hstack, hbelow', List.getLast?_singleton] at hlast
      exact Option.some.inj hlast
    rw [hseeds'] at hseedseq
    obtain ⟨hidx1, hq, _⟩ := drop_eq_cons hseedseq.symm
    show GapFree text (text.getD top.text_pos 0 + 1) (text.getD q 0)
    rw [htop, hq]
    show GapFree text (text.getD (full.getD idx 0) 0 + 1)
      (text.getD (full.getD (idx + 1) 0) 0)
    rw [hfull]
    rw [hfull] at hidx1
    exact ldcSpec_gap hclean hidx1
  case bestempty => exact hinv.bestempty
  case bestgood => exact hinv.bestgood

theorem inv_prune {text full : List Nat} {s : SearchState} {top : StackElement}
    {below : List StackElement} {i : Nat} (hclean : ∀ b ∈ text, b < 255)
    (hfull : full = ldcSpec text) (hinv : Inv text full s)
    (hstack : s.stack = top :: below)
    (hsucc : successor_element text (top.text_pos + 1)
      (if s.upwardmove then s.lastchildedgelabel
        else immatureOf text (top :: below)) = some (some i)) :
    Inv text full { s with
      upwardmove := true
      lastchildedgelabel := text.getD i 0 + 1 } := by
  obtain ⟨himm, hpos, hlt⟩ := push_facts hclean hstack hinv.upinv hsucc
  constructor
  case chain => exact hinv.chain
  case bounded => exact hinv.bounded
  case struct => exact hinv.struct
  case growth => exact hinv.growth
  case label_le =>
    have := getD_le_254 hclean i
    show text.getD i 0 + 1 ≤ 255
    omega
  case upinv =>
    intro _ _
    left
    show immatureOf text s.stack ≤ text.getD i 0 + 1
    rw [hstack]
    omega
  case seedsuf => exact hinv.seedsuf
  case bottomseed => exact hinv.bottomseed
  case betweeninv =>
    intro h
    rw [hstack] at h
    exact absurd h (by simp)
  case bestempty => exact hinv.bestempty
  case bestgood => exact hinv.bestgood

theorem period_ne_succ_len {text : List Nat} {st : List StackElement}
    {top : StackElement} {below : List StackElement}
    (hst : st = top :: below) (hstruct : StructOK text st) :
    top.period ≠ st.length + 1 := by
  obtain ⟨L, k, r, hLS, hk, hr, hword, hper⟩ := hstruct
  have hp : 0 < L.length := hLS.length_pos
  have hlen : st.length = k * L.length + r := by
    have h1 := congrArg List.length hword
    rw [wordOf_length, List.length_append, repeatL_length, List.length_take,
      Nat.min_eq_left (le_of_lt hr)] at h1
    exact h1
  have hple : L.length ≤ k * L.length := Nat.le_mul_of_pos_left _ (by omega)
  have hpertop : L.length = top.period := by
    rw [hper, hst]
    rfl
  omega

theorem inv_push_cont {text full : List Nat} {s : SearchState}
    {top : StackElement} {below : List StackElement} {i : Nat}
    (hclean : ∀ b ∈ text, b < 255) (hfull : full = ldcSpec text)
    (hinv : Inv text full s) (hstack : s.stack = top :: below)
    (hsucc : successor_element text (top.text_pos + 1)
      (if s.upwardmove then s.lastchildedgelabel
        else immatureOf text (top :: below)) = some (some i))
    (himm_eq : immatureOf text (top :: below) = text.getD i 0) :
    Inv text full { s with
      stack := ⟨i, top.period⟩ :: s.stack
      upwardmove := false } := by
  obtain ⟨himm, hpos, hilt⟩ := push_facts hclean hstack hinv.upinv hsucc
  have hchain := hinv.chain
  rw [hstack] at hchain
  constructor
  case chain =>
    show List.Chain' _ (⟨i, top.period⟩ :: s.stack)
    rw [hstack]
    exact List.chain'_cons.mpr ⟨hpos, hchain⟩
  case bounded =>
    intro e he
    rcases List.mem_cons.mp he with rfl | he'
    · exact hilt
    · exact hinv.bounded e he'
  case struct =>
    intro m hm
    match m with
    | 0 =>
      obtain ⟨L, k, r, hLS, hk, hr, hword, hper⟩ := hinv.struct 0
        (by rw [hstack]; simp)
      rw [List.drop_zero] at hword hper ⊢
      rw [hstack] at hword hper
      have himmL : immatureOf text (top :: below) = L.getD r 0 :=
        immature_of_struct (by simp) hLS hk hr hword hper
      have hx : text.getD i 0 = L.getD r 0 := by rw [← himm_eq, himmL]
      by_cases hrp : r + 1 < L.length
      · refine ⟨L, k, r + 1, hLS, hk, hrp, ?_, ?_⟩
        · show wordOf text (⟨i, top.period⟩ :: s.stack) = _
          rw [hstack, wordOf_cons, hword, hx, List.append_assoc,
            take_succ_getD hr]
        · rw [hper]
          rfl
      · have hrp' : r + 1 = L.length := by omega
        refine ⟨L, k + 1, 0, hLS, by omega, by omega, ?_, ?_⟩
        · show wordOf text (⟨i, top.period⟩ :: s.stack) = _
          rw [hstack, wordOf_cons, hword, hx, List.append_assoc,
            take_succ_getD hr, hrp', List.take_length, ← repeatL_succ_right,
            List.take_zero, List.append_nil]
        · rw [hper]
          rfl
    | m + 1 =>
      have hm' : m < s.stack.length := by
        have : m + 1 < s.stack.length + 1 := hm
        omega
      have h1 := hinv.struct m hm'
      exact h1
  case growth =>
    intro m hm
    match m with
    | 0 =>
      show immatureOf text s.stack ≤ text.getD i 0
      rw [hstack, himm_eq]
    | m + 1 =>
      have hm' : m + 1 < s.stack.length := by
        have : m + 2 < s.stack.length + 1 := hm
        omega
      exact hinv.growth m hm'
  case label_le => exact hinv.label_le
  case upinv =>
    intro h
    exact absurd h (by simp)
  case seedsuf => exact hinv.seedsuf
  case bottomseed =>
    intro _
    obtain ⟨idx, hidxlt, hseedseq, hlast⟩ :=
      hinv.bottomseed (by rw [hstack]; simp)
    refine ⟨idx, hidxlt, hseedseq, ?_⟩
    show (⟨i, top.period⟩ :: s.stack).getLast? = _
    rw [hstack, List.getLast?_cons_cons, ← hstack]
    exact hlast
  case betweeninv =>
    intro h
    exact absurd h (by simp)
  case bestempty => exact hinv.bestempty
  case bestgood => exact hinv.bestgood

theorem inv_push_new {text full : List Nat} {s : SearchState}
    {top : StackElement} {below : List StackElement} {i : Nat}
    (hclean : ∀ b ∈ text, b < 255) (hfull : full = ldcSpec text)
    (hinv : Inv text full s) (hstack : s.stack = top :: below)
    (hsucc : successor_element text (top.text_pos + 1)
      (if s.upwardmove then s.lastchildedgelabel
        else immatureOf text (top :: below)) = some (some i))
    (himm_ne : immatureOf text (top :: below) ≠ text.getD i 0) :
    Inv text full
      { larray := s.larray.set (s.stack.length + 1) (some i)
        best := if s.best.length < s.stack.length + 1 then
            ⟨i, s.stack.length + 1⟩ :: s.stack else s.best
        stack := ⟨i, s.stack.length + 1⟩ :: s.stack
        lastchildedgelabel := s.lastchildedgelabel
        upwardmove := false
        seeds := s.seeds } := by
  obtain ⟨himm, hpos, hilt⟩ := push_facts hclean hstack hinv.upinv hsucc
  have hchain := hinv.chain
  rw [hstack] at hchain
  have hchain' : (StackElement.mk i (s.stack.length + 1) :: s.stack).Chain'
      (fun a b => b.text_pos < a.text_pos) := by
    rw [hstack]
    exact List.chain'_cons.mpr ⟨hpos, hchain⟩
  have hLS' : LyndonS (wordOf text (⟨i, s.stack.length + 1⟩ :: s.stack)) := by
    obtain ⟨L, k, r, hLS, hk, hr, hword, hper⟩ := hinv.struct 0
      (by rw [hstack]; simp)
    rw [List.drop_zero] at hword hper
    rw [hstack] at hword hper
    have himmL : immatureOf text (top :: below) = L.getD r 0 :=
      immature_of_struct (by simp) hLS hk hr hword hper
    have hx : L.getD r 0 < text.getD i 0 := by
      rw [← himmL]
      omega
    have hext := lyndonS_ext hLS hk hr hx
    rw [wordOf_cons, hstack, hword, List.append_assoc]
    exact hext
  have hwlen : (wordOf text (⟨i, s.stack.length + 1⟩ :: s.stack)).length
      = s.stack.length + 1 := by
    rw [wordOf_length]
    rfl
  constructor
  case chain => exact hchain'
  case bounded =>
    intro e he
    rcases List.mem_cons.mp he with rfl | he'
    · exact hilt
    · exact hinv.bounded e he'
  case struct =>
    intro m hm
    match m with
    | 0 =>
      refine ⟨wordOf text (⟨i, s.stack.length + 1⟩ :: s.stack), 1, 0,
        hLS', le_refl 1, by rw [hwlen]; omega, ?_, ?_⟩
      · show wordOf text (⟨i, s.stack.length + 1⟩ :: s.stack) = _
        rw [List.take_zero, List.append_nil, repeatL_one]
      · rw [hwlen]
        rfl
    | m + 1 =>
      have hm' : m < s.stack.length := by
        have : m + 1 < s.stack.length + 1 := hm
        omega
      exact hinv.struct m hm'
  case growth =>
    intro m hm
    match m with
    | 0 =>
      show immatureOf text s.stack ≤ text.getD i 0
      rw [hstack]
      exact himm
    | m + 1 =>
      have hm' : m + 1 < s.stack.length := by
        have : m + 2 < s.stack.length + 1 := hm
        omega
      exact hinv.growth m hm'
  case label_le => exact hinv.label_le
  case upinv =>
    intro h
    exact absurd h (by simp)
  case seedsuf => exact hinv.seedsuf
  case bottomseed =>
    intro _
    obtain ⟨idx, hidxlt, hseedseq, hlast⟩ :=
      hinv.bottomseed (by rw [hstack]; simp)
    refine ⟨idx, hidxlt, hseedseq, ?_⟩
    show (⟨i, s.stack.length + 1⟩ :: s.stack).getLast? = _
    rw [hstack, List.getLast?_cons_cons, ← hstack]
    exact hlast
  case betweeninv =>
    intro h
    exact absurd h (by simp)
  case bestempty =>
    intro hb
    have hb' : (if s.best.length < s.stack.length + 1 then
        StackElement.mk i (s.stack.length + 1) :: s.stack else s.best) = [] := hb
    by_cases hc : s.best.length < s.stack.length + 1
    · rw [if_pos hc] at hb'
      exact absurd hb' (by simp)
    · rw [if_neg hc] at hb'
      exact hinv.bestempty hb'
  case bestgood =>
    intro _
    show GoodStack text (if s.best.length < s.stack.length + 1 then
      ⟨i, s.stack.length + 1⟩ :: s.stack else s.best)
    by_cases hc : s.best.length < s.stack.length + 1
    · rw [if_pos hc]
      refine ⟨by simp, hchain', ?_, hLS'⟩
      intro e he
      rcases List.mem_cons.mp he with rfl | he'
      · exact hilt
      · exact hinv.bounded e he'
    · rw [if_neg hc]
      exact hinv.bestgood (by
        intro hbnil
        rw [hbnil] at hc
        simp at hc)

theorem step_no_panic {text : List Nat} (hclean : ∀ b ∈ text, b < 255)
    (s : SearchState) : step text s ≠ .panicked := by
  intro h
  cases hstack : s.stack with
  | nil =>
    cases hseeds : s.seeds with
    | nil =>
      simp only [step, hstack, hseeds] at h
      exact StepOut.noConfusion h
    | cons q rest =>
      simp only [step, hstack, hseeds] at h
      exact StepOut.noConfusion h
  | cons top below =>
    obtain ⟨r, hsucc⟩ := @successor_not_panic text (top.text_pos + 1)
      (if s.upwardmove then s.lastchildedgelabel
        else immatureOf text (top :: below)) hclean
    cases r with
    | none =>
      simp only [step, hstack, hsucc] at h
      exact StepOut.noConfusion h
    | some i =>
      simp only [step, hstack, hsucc] at h
      split at h
      · exact StepOut.noConfusion h
      · split at h <;> split at h <;> exact StepOut.noConfusion h

theorem inv_step {text full : List Nat} {s s' : SearchState}
    (hclean : ∀ b ∈ text, b < 255) (hfull : full = ldcSpec text)
    (hinv : Inv text full s) (hstep : step text s = .next s') :
    Inv text full s' := by
  cases hstack : s.stack with
  | nil =>
    cases hseeds : s.seeds with
    | nil =>
      simp only [step, hstack, hseeds] at hstep
      exact StepOut.noConfusion hstep
    | cons q rest =>
      simp only [step, hstack, hseeds] at hstep
      have h := StepOut.next.inj hstep
      rw [← h]
      exact inv_seed hclean hfull hinv hstack hseeds
  | cons top below =>
    cases hsucc : successor_element text (top.text_pos + 1)
      (if s.upwardmove then s.lastchildedgelabel
        else immatureOf text (top :: below)) with
    | none =>
      simp only [step, hstack, hsucc] at hstep
      exact StepOut.noConfusion hstep
    | some oi =>
      cases oi with
      | none =>
        simp only [step, hstack, hsucc] at hstep
        have h := StepOut.next.inj hstep
        rw [← h]
        exact inv_pop hclean hfull hinv hstack
      | some i =>
        simp only [step, hstack, hsucc] at hstep
        split at hstep
        · -- pruned
          have h := StepOut.next.inj hstep
          rw [← h]
          have hres := inv_prune hclean hfull hinv hstack hsucc
          rw [hstack] at hres
          exact hres
        · -- push
          by_cases himm : immatureOf text (top :: below) = text.getD i 0
          · -- continuation: new_period = top.period ≠ len'
            rw [if_pos himm] at hstep
            have hst0 := hinv.struct 0 (by rw [hstack]; simp)
            rw [List.drop_zero, hstack] at hst0
            have hne : top.period ≠ (top :: below).length + 1 :=
              period_ne_succ_len rfl hst0
            rw [if_neg hne] at hstep
            have h := StepOut.next.inj hstep
            rw [← h]
            have hres := inv_push_cont hclean hfull hinv hstack hsucc himm
            rw [hstack] at hres
            exact hres
          · -- new Lyndon word: new_period = len'
            rw [if_neg himm, if_pos rfl] at hstep
            have h := StepOut.next.inj hstep
            rw [← h]
            have hres := inv_push_new hclean hfull hinv hstack hsucc himm
            rw [hstack] at hres
            exact hres

/-! Termination: a DFS token that strictly increases with every inner
iteration, turned into a decreasing natural-number measure. -/

/-- The DFS cursor: the stack's bytes (bottom-first) followed by the
comparison character the next iteration will use. -/
def tokenOf (text : List Nat) (s : SearchState) : List Nat :=
  wordOf text s.stack ++
    [if s.upwardmove then s.lastchildedgelabel else immatureOf text s.stack]

/-- Base-258 value of a token (entries shifted by one). -/
def horner (T : List Nat) : Nat := T.foldl (fun acc a => acc * 258 + (a + 1)) 0

/-- Token value padded to a fixed width `m`. -/
def nuM (T : List Nat) (m : Nat) : Nat := horner T * 258 ^ (m - T.length)

/-- Decreasing measure for the whole search. -/
def measureOf (text : List Nat) (s : SearchState) : Nat :=
  s.seeds.length * (258 ^ (text.length + 1) + 1) +
    (258 ^ (text.length + 1) - nuM (tokenOf text s) (text.length + 1))

theorem horner_foldl : ∀ (T : List Nat) (acc : Nat),
    T.foldl (fun acc a => acc * 258 + (a + 1)) acc =
      acc * 258 ^ T.length + horner T := by
  intro T
  induction T with
  | nil => intro acc; simp [horner]
  | cons a T' ih =>
    intro acc
    show T'.foldl _ (acc * 258 + (a + 1)) = acc * 258 ^ (T'.length + 1) + horner (a :: T')
    rw [ih (acc * 258 + (a + 1))]
    have h2 : horner (a :: T') = (a + 1) * 258 ^ T'.length + horner T' := by
      show T'.foldl _ (0 * 258 + (a + 1)) = _
      rw [ih (0 * 258 + (a + 1))]
      ring
    rw [h2]
    ring

theorem horner_cons (a : Nat) (T : List Nat) :
    horner (a :: T) = (a + 1) * 258 ^ T.length + horner T := by
  show T.foldl _ (0 * 258 + (a + 1)) = _
  rw [horner_foldl]
  ring

theorem horner_append (T U : List Nat) :
    horner (T ++ U) = horner T * 258 ^ U.length + horner U := by
  unfold horner
  rw [List.foldl_append]
  exact horner_foldl U _

theorem horner_lt {T : List Nat} (hT : ∀ a ∈ T, a ≤ 256) :
    horner T < 258 ^ T.length := by
  induction T with
  | nil => show 0 < 1; omega
  | cons a T' ih =>
    rw [horner_cons, List.length_cons]
    have ha : a ≤ 256 := hT a (by simp)
    have hT' := ih fun x hx => hT x (by simp [hx])
    have h2 : (a + 2) * 258 ^ T'.length ≤ 258 ^ (T'.length + 1) := by
      rw [pow_succ]
      calc (a + 2) * 258 ^ T'.length ≤ 258 * 258 ^ T'.length :=
            Nat.mul_le_mul_right _ (by omega)
        _ = 258 ^ T'.length * 258 := by ring
    have h3 : (a + 1) * 258 ^ T'.length + 258 ^ T'.length
        = (a + 2) * 258 ^ T'.length := by ring
    omega

theorem nuM_lt {T : List Nat} {m : Nat} (hlen : T.length ≤ m)
    (hT : ∀ a ∈ T, a ≤ 256) : nuM T m < 258 ^ m := by
  unfold nuM
  have h1 := horner_lt hT
  have h2 : 258 ^ T.length * 258 ^ (m - T.length) = 258 ^ m := by
    rw [← pow_add]
    congr 1
    omega
  calc horner T * 258 ^ (m - T.length)
        < 258 ^ T.length * 258 ^ (m - T.length) :=
          (Nat.mul_lt_mul_right (Nat.pos_pow_of_pos _ (by omega))).mpr h1
    _ = 258 ^ m := h2

theorem nuM_ext {T : List Nat} {c m : Nat} (hlen : T.length < m) :
    nuM T m < nuM (T ++ [c]) m := by
  unfold nuM
  rw [horner_append]
  have hl : (T ++ [c]).length = T.length + 1 := by simp
  rw [hl]
  have hh : horner [c] = c + 1 := by
    show 0 * 258 + (c + 1) = c + 1
    omega
  rw [hh]
  have h1 : 258 ^ 1 = 258 := pow_one 258
  rw [List.length_singleton, h1]
  have h2 : m - T.length = (m - (T.length + 1)) + 1 := by omega
  rw [h2, pow_succ]
  calc horner T * (258 ^ (m - (T.length + 1)) * 258)
        = (horner T * 258) * 258 ^ (m - (T.length + 1)) := by ring
    _ < (horner T * 258 + (c + 1)) * 258 ^ (m - (T.length + 1)) := by
        have hp : 0 < 258 ^ (m - (T.length + 1)) :=
          Nat.pos_pow_of_pos _ (by omega)
        exact (Nat.mul_lt_mul_right hp).mpr (by omega)

theorem nuM_lex {P R Q : List Nat} {a b m : Nat} (hab : a < b)
    (hR : ∀ x ∈ R, x ≤ 256) (hlen : (P ++ [a] ++ R).length ≤ m)
    (hlenp : (P ++ [b] ++ Q).length ≤ m) :
    nuM (P ++ [a] ++ R) m < nuM (P ++ [b] ++ Q) m := by
  have hlen1 : (P ++ [a] ++ R).length = P.length + 1 + R.length := by
    simp
    omega
  have hlen2 : (P ++ [b] ++ Q).length = P.length + 1 + Q.length := by
    simp
    omega
  have hA : horner (P ++ [a] ++ R) < (horner (P ++ [a]) + 1) * 258 ^ R.length := by
    rw [horner_append]
    have := horner_lt hR
    have hgoal : horner (P ++ [a]) * 258 ^ R.length + horner R <
        horner (P ++ [a]) * 258 ^ R.length + 258 ^ R.length := by omega
    calc horner (P ++ [a]) * 258 ^ R.length + horner R
          < horner (P ++ [a]) * 258 ^ R.length + 258 ^ R.length := hgoal
      _ = (horner (P ++ [a]) + 1) * 258 ^ R.length := by ring
  have hB : horner (P ++ [b]) * 258 ^ Q.length ≤ horner (P ++ [b] ++ Q) := by
    rw [horner_append (P ++ [b]) Q]
    omega
  have hab' : horner (P ++ [a]) + 1 ≤ horner (P ++ [b]) := by
    rw [horner_append, horner_append]
    have ha : horner [a] = a + 1 := by show 0 * 258 + (a + 1) = a + 1; omega
    have hb : horner [b] = b + 1 := by show 0 * 258 + (b + 1) = b + 1; omega
    rw [ha, hb]
    simp only [List.length_singleton]
    omega
  unfold nuM
  rw [hlen1, hlen2]
  have e1 : 258 ^ R.length * 258 ^ (m - (P.length + 1 + R.length))
      = 258 ^ (m - (P.length + 1)) := by
    rw [← pow_add]
    congr 1
    rw [hlen1] at hlen
    omega
  have e2 : 258 ^ Q.length * 258 ^ (m - (P.length + 1 + Q.length))
      = 258 ^ (m - (P.length + 1)) := by
    rw [← pow_add]
    congr 1
    rw [hlen2] at hlenp
    omega
  calc horner (P ++ [a] ++ R) * 258 ^ (m - (P.length + 1 + R.length))
        < ((horner (P ++ [a]) + 1) * 258 ^ R.length) *
            258 ^ (m - (P.length + 1 + R.length)) := by
          exact (Nat.mul_lt_mul_right (Nat.pos_pow_of_pos _ (by omega))).mpr hA
    _ = (horner (P ++ [a]) + 1) * 258 ^ (m - (P.length + 1)) := by
          rw [mul_assoc, e1]
    _ ≤ horner (P ++ [b]) * 258 ^ (m - (P.length + 1)) :=
          Nat.mul_le_mul_right _ hab'
    _ = (horner (P ++ [b]) * 258 ^ Q.length) *
            258 ^ (m - (P.length + 1 + Q.length)) := by
          rw [mul_assoc, e2]
    _ ≤ horner (P ++ [b] ++ Q) * 258 ^ (m - (P.length + 1 + Q.length)) :=
          Nat.mul_le_mul_right _ hB

theorem stack_len_le {text full : List Nat} {s : SearchState}
    (hinv : Inv text full s) : s.stack.length ≤ text.length := by
  have hchain := hinv.chain
  haveI : IsTrans StackElement (fun a b => b.text_pos < a.text_pos) :=
    ⟨fun a b c h1 h2 => lt_trans h2 h1⟩
  rw [List.chain'_iff_pairwise] at hchain
  have hpw : (s.stack.map StackElement.text_pos).Pairwise (fun x y => y < x) := by
    rw [List.pairwise_map]
    exact hchain
  have hnodup : (s.stack.map StackElement.text_pos).Nodup :=
    hpw.imp fun h => (Nat.ne_of_lt h).symm
  have h1 : (s.stack.map StackElement.text_pos).toFinset ⊆
      Finset.range text.length := by
    intro x hx
    rw [List.mem_toFinset] at hx
    rw [Finset.mem_range]
    obtain ⟨e, he, rfl⟩ := List.mem_map.mp hx
    exact hinv.bounded e he
  have h2 := Finset.card_le_card h1
  rw [List.toFinset_card_of_nodup hnodup, Finset.card_range,
    List.length_map] at h2
  exact h2

theorem tokenOf_length (text : List Nat) (s : SearchState) :
    (tokenOf text s).length = s.stack.length + 1 := by
  unfold tokenOf
  rw [List.length_append, wordOf_length, List.length_singleton]

theorem wordOf_entries {text : List Nat} (hclean : ∀ b ∈ text, b < 255)
    (st : List StackElement) : ∀ a ∈ wordOf text st, a ≤ 254 := by
  intro a ha
  unfold wordOf at ha
  obtain ⟨e, _, rfl⟩ := List.mem_map.mp ha
  exact getD_le_254 hclean _

theorem compare_le_255 {text full : List Nat} {s : SearchState}
    (hclean : ∀ b ∈ text, b < 255) (hinv : Inv text full s) :
    (if s.upwardmove then s.lastchildedgelabel
      else immatureOf text s.stack) ≤ 255 := by
  split
  · exact hinv.label_le
  · exact le_trans (getD_le_254 hclean _) (by omega)

theorem tokenOf_entries {text full : List Nat} {s : SearchState}
    (hclean : ∀ b ∈ text, b < 255) (hinv : Inv text full s) :
    ∀ a ∈ tokenOf text s, a ≤ 256 := by
  intro a ha
  unfold tokenOf at ha
  rcases List.mem_append.mp ha with h | h
  · have := wordOf_entries hclean s.stack a h
    omega
  · have ha' : a = (if s.upwardmove then s.lastchildedgelabel
        else immatureOf text s.stack) := by simpa using h
    rw [ha']
    have := compare_le_255 hclean hinv
    omega

theorem measure_lt_of_nu {text : List Nat} {s s' : SearchState}
    (hseeds : s'.seeds = s.seeds)
    (hnu : nuM (tokenOf text s) (text.length + 1) <
      nuM (tokenOf text s') (text.length + 1))
    (hb : nuM (tokenOf text s) (text.length + 1) < 258 ^ (text.length + 1)) :
    measureOf text s' < measureOf text s := by
  unfold measureOf
  rw [hseeds]
  omega

theorem measure_lt_of_seeds {text : List Nat} {s s' : SearchState}
    (hlen : s'.seeds.length < s.seeds.length) :
    measureOf text s' < measureOf text s := by
  unfold measureOf
  have h1 : s'.seeds.length + 1 ≤ s.seeds.length := hlen
  have h2 : (s'.seeds.length + 1) * (258 ^ (text.length + 1) + 1) ≤
      s.seeds.length * (258 ^ (text.length + 1) + 1) :=
    Nat.mul_le_mul_right _ h1
  have h3 : (s'.seeds.length + 1) * (258 ^ (text.length + 1) + 1) =
      s'.seeds.length * (258 ^ (text.length + 1) + 1) +
        (258 ^ (text.length + 1) + 1) := by ring
  have h4 : 258 ^ (text.length + 1) -
      nuM (tokenOf text s') (text.length + 1) ≤ 258 ^ (text.length + 1) :=
    Nat.sub_le _ _
  omega

theorem measure_decreases {text full : List Nat} {s s' : SearchState}
    (hclean : ∀ b ∈ text, b < 255) (hfull : full = ldcSpec text)
    (hinv : Inv text full s) (hstep : step text s = .next s') :
    measureOf text s' < measureOf text s := by
  have hinv' : Inv text full s' := inv_step hclean hfull hinv hstep
  have hslen := stack_len_le hinv
  have hslen' := stack_len_le hinv'
  have htokentries := tokenOf_entries hclean hinv
  have htoklen : (tokenOf text s).length ≤ text.length + 1 := by
    rw [tokenOf_length]
    omega
  have hb : nuM (tokenOf text s) (text.length + 1) < 258 ^ (text.length + 1) :=
    nuM_lt htoklen htokentries
  cases hstack : s.stack with
  | nil =>
    cases hseeds : s.seeds with
    | nil =>
      simp only [step, hstack, hseeds] at hstep
      exact StepOut.noConfusion hstep
    | cons q rest =>
      simp only [step, hstack, hseeds] at hstep
      have h := StepOut.next.inj hstep
      apply measure_lt_of_seeds
      rw [← h, hseeds]
      simp
  | cons top below =>
    have htoks : tokenOf text s = (wordOf text below ++
        [text.getD top.text_pos 0]) ++
        [if s.upwardmove then s.lastchildedgelabel
          else immatureOf text s.stack] := by
      unfold tokenOf
      rw [hstack, wordOf_cons]
    cases hsucc : successor_element text (top.text_pos + 1)
      (if s.upwardmove then s.lastchildedgelabel
        else immatureOf text (top :: below)) with
    | none =>
      simp only [step, hstack, hsucc] at hstep
      exact StepOut.noConfusion hstep
    | some oi =>
      cases oi with
      | none =>
        simp only [step, hstack, hsucc] at hstep
        have h := StepOut.next.inj hstep
        apply measure_lt_of_nu (by rw [← h])
        · rw [← h]
          have htok' : tokenOf text { s with
              upwardmove := true
              lastchildedgelabel := text.getD top.text_pos 0 + 1
              stack := below } =
              wordOf text below ++ [text.getD top.text_pos 0 + 1] := rfl
          rw [htok', htoks]
          have hlex := nuM_lex (P := wordOf text below)
            (R := [if s.upwardmove then s.lastchildedgelabel
              else immatureOf text s.stack]) (Q := ([] : List Nat))
            (m := text.length + 1)
            (show text.getD top.text_pos 0 < text.getD top.text_pos 0 + 1
              by omega)
            ?_ ?_ ?_
          · rw [List.append_nil] at hlex
            exact hlex
          · intro x hx
            have hx' : x = (if s.upwardmove then s.lastchildedgelabel
                else immatureOf text s.stack) := by simpa using hx
            rw [hx']
            have := compare_le_255 hclean hinv
            omega
          · rw [← htoks]
            exact htoklen
          · rw [List.append_nil]
            have hlb : below.length + 1 ≤ text.length := by
              rw [hstack] at hslen
              simpa using hslen
            rw [List.length_append, wordOf_length, List.length_singleton]
            omega
        · exact hb
      | some i =>
        have hcmp : (if s.upwardmove then s.lastchildedgelabel
            else immatureOf text (top :: below)) ≤ text.getD i 0 :=
          (successor_eq_some hclean hsucc).2.2.1
        have hcmp' : (if s.upwardmove then s.lastchildedgelabel
            else immatureOf text s.stack) ≤ text.getD i 0 := by
          rw [hstack]
          exact hcmp
        simp only [step, hstack, hsucc] at hstep
        split at hstep
        · -- pruned
          have h := StepOut.next.inj hstep
          apply measure_lt_of_nu (by rw [← h])
          · rw [← h]
            have htok' : tokenOf text
                { larray := s.larray
                  best := s.best
                  stack := top :: below
                  lastchildedgelabel := text.getD i 0 + 1
                  upwardmove := true
                  seeds := s.seeds } =
                wordOf text (top :: below) ++ [text.getD i 0 + 1] := rfl
            have htoks2 : tokenOf text s = wordOf text (top :: below) ++
                [if s.upwardmove then s.lastchildedgelabel
                  else immatureOf text s.stack] := by
              unfold tokenOf
              rw [hstack]
            rw [htok', htoks2]
            have hlex := nuM_lex (P := wordOf text (top :: below))
              (R := ([] : List Nat)) (Q := ([] : List Nat))
              (m := text.length + 1)
              (show (if s.upwardmove then s.lastchildedgelabel
                  else immatureOf text s.stack) < text.getD i 0 + 1
                by omega)
              (by intro x hx; simp at hx) ?_ ?_
            · rw [List.append_nil, List.append_nil] at hlex
              exact hlex
            · rw [List.append_nil, ← htoks2]
              exact htoklen
            · rw [List.append_nil, List.length_append, wordOf_length,
                List.length_singleton]
              have : (top :: below).length ≤ text.length := by
                rw [← hstack]
                exact hslen
              omega
          · exact hb
        · -- push (continuation or completion)
          have hlb : s.stack.length + 1 ≤ text.length := by
            have h0 : s'.stack.length ≤ text.length := hslen'
            have h1 : s'.stack.length = s.stack.length + 1 := by
              by_cases himm : immatureOf text (top :: below) = text.getD i 0
              · rw [if_pos himm] at hstep
                have hst0 := hinv.struct 0 (by rw [hstack]; simp)
                rw [List.drop_zero, hstack] at hst0
                have hne : top.period ≠ (top :: below).length + 1 :=
                  period_ne_succ_len rfl hst0
                rw [if_neg hne] at hstep
                have h := StepOut.next.inj hstep
                rw [← h, hstack]
                rfl
              · rw [if_neg himm, if_pos rfl] at hstep
                have h := StepOut.next.inj hstep
                rw [← h, hstack]
                rfl
            omega
          by_cases himm : immatureOf text (top :: below) = text.getD i 0
          · -- continuation push
            rw [if_pos himm] at hstep
            have hst0 := hinv.struct 0 (by rw [hstack]; simp)
            rw [List.drop_zero, hstack] at hst0
            have hne : top.period ≠ (top :: below).length + 1 :=
              period_ne_succ_len rfl hst0
            rw [if_neg hne] at hstep
            have h := StepOut.next.inj hstep
            apply measure_lt_of_nu (by rw [← h])
            · rw [← h]
              have htok' : tokenOf text { s with
                  stack := ⟨i, top.period⟩ :: top :: below
                  upwardmove := false } =
                  (wordOf text (top :: below) ++ [text.getD i 0]) ++
                    [immatureOf text
                      (StackElement.mk i top.period :: top :: below)] := by
                unfold tokenOf
                show wordOf text (⟨i, top.period⟩ :: top :: below) ++ _ = _
                rw [wordOf_cons]
                rfl
              rw [htok']
              have htoks2 : tokenOf text s = wordOf text (top :: below) ++
                  [if s.upwardmove then s.lastchildedgelabel
                    else immatureOf text s.stack] := by
                unfold tokenOf
                rw [hstack]
              rw [htoks2]
              rcases Nat.lt_or_ge (if s.upwardmove then s.lastchildedgelabel
                  else immatureOf text s.stack) (text.getD i 0) with hlt | hge
              · have hlex := nuM_lex (P := wordOf text (top :: below))
                  (R := ([] : List Nat))
                  (Q := [immatureOf text
                    (StackElement.mk i top.period :: top :: below)])
                  (m := text.length + 1) hlt
                  (by intro x hx; simp at hx) ?_ ?_
                · rw [List.append_nil] at hlex
                  exact hlex
                · rw [List.append_nil, ← htoks2]
                  exact htoklen
                · rw [hstack] at hlb
                  simp only [List.length_append, wordOf_length,
                    List.length_singleton]
                  omega
              · have heq : (if s.upwardmove then s.lastchildedgelabel
                    else immatureOf text s.stack) = text.getD i 0 := by omega
                rw [heq]
                apply nuM_ext
                rw [hstack] at hlb
                simp only [List.length_append, wordOf_length,
                  List.length_singleton]
                omega
            · exact hb
          · -- completion push
            rw [if_neg himm, if_pos rfl] at hstep
            have h := StepOut.next.inj hstep
            apply measure_lt_of_nu (by rw [← h])
            · rw [← h]
              have htok' : tokenOf text
                  { larray := s.larray.set ((top :: below).length + 1) (some i)
                    best := if s.best.length < (top :: below).length + 1 then
                      ⟨i, (top :: below).length + 1⟩ :: top :: below else s.best
                    stack := ⟨i, (top :: below).length + 1⟩ :: top :: below
                    lastchildedgelabel := s.lastchildedgelabel
                    upwardmove := false
                    seeds := s.seeds } =
                  (wordOf text (top :: below) ++ [text.getD i 0]) ++
                    [immatureOf text (StackElement.mk i
                      ((top :: below).length + 1) :: top :: below)] := by
                unfold tokenOf
                show wordOf text (⟨i, (top :: below).length + 1⟩ ::
                  top :: below) ++ _ = _
                rw [wordOf_cons]
                rfl
              rw [htok']
              have htoks2 : tokenOf text s = wordOf text (top :: below) ++
                  [if s.upwardmove then s.lastchildedgelabel
                    else immatureOf text s.stack] := by
                unfold tokenOf
                rw [hstack]
              rw [htoks2]
              rcases Nat.lt_or_ge (if s.upwardmove then s.lastchildedgelabel
                  else immatureOf text s.stack) (text.getD i 0) with hlt | hge
              · have hlex := nuM_lex (P := wordOf text (top :: below))
                  (R := ([] : List Nat))
                  (Q := [immatureOf text (StackElement.mk i
                    ((top :: below).length + 1) :: top :: below)])
                  (m := text.length + 1) hlt
                  (by intro x hx; simp at hx) ?_ ?_
                · rw [List.append_nil] at hlex
                  exact hlex
                · rw [List.append_nil, ← htoks2]
                  exact htoklen
                · rw [hstack] at hlb
                  simp only [List.length_append, wordOf_length,
                    List.length_singleton]
                  omega
              · have heq : (if s.upwardmove then s.lastchildedgelabel
                    else immatureOf text s.stack) = text.getD i 0 := by omega
                rw [heq]
                apply nuM_ext
                rw [hstack] at hlb
                simp only [List.length_append, wordOf_length,
                  List.length_singleton]
                omega
            · exact hb

theorem inv_init {text full : List Nat} (hfull : full = ldcSpec text) :
    Inv text full (initState text full) := by
  constructor
  case chain => exact List.chain'_nil
  case bounded => intro e he; simp [initState] at he
  case growth => intro m hm; simp [initState] at hm
  case struct => intro m hm; simp [initState] at hm
  case label_le => show 0 ≤ 255; omega
  case upinv => intro h _; exact absurd h (by simp [initState])
  case seedsuf => exact ⟨0, by omega, by simp [initState]⟩
  case bottomseed => intro h; exact absurd rfl h
  case betweeninv => intro _ h; exact absurd h (by simp [initState])
  case bestempty => intro _; rfl
  case bestgood => intro h; exact absurd rfl h

theorem step_finished {text : List Nat} {s : SearchState}
    {b : List StackElement} (hclean : ∀ b ∈ text, b < 255)
    (h : step text s = .finished b) :
    s.stack = [] ∧ s.seeds = [] ∧ b = s.best := by
  cases hstack : s.stack with
  | nil =>
    cases hseeds : s.seeds with
    | nil =>
      simp only [step, hstack, hseeds] at h
      exact ⟨rfl, rfl, (StepOut.finished.inj h).symm⟩
    | cons q rest =>
      simp only [step, hstack, hseeds] at h
      exact StepOut.noConfusion h
  | cons top below =>
    obtain ⟨r, hsucc⟩ := @successor_not_panic text (top.text_pos + 1)
      (if s.upwardmove then s.lastchildedgelabel
        else immatureOf text (top :: below)) hclean
    cases r with
    | none =>
      simp only [step, hstack, hsucc] at h
      exact StepOut.noConfusion h
    | some i =>
      simp only [step, hstack, hsucc] at h
      split at h
      · exact StepOut.noConfusion h
      · split at h <;> split at h <;> exact StepOut.noConfusion h

theorem loop_ok {text full : List Nat} (hclean : ∀ b ∈ text, b < 255)
    (hfull : full = ldcSpec text) :
    ∀ fuel s, Inv text full s → measureOf text s < fuel →
      ∃ r, loop text fuel s = .ok r ∧ (r = [] → full = []) ∧
        (r ≠ [] → GoodStack text r) := by
  intro fuel
  induction fuel with
  | zero => intro s _ hm; omega
  | succ fuel ih =>
    intro s hinv hm
    cases hstep : step text s with
    | panicked => exact absurd hstep (step_no_panic hclean s)
    | finished b =>
      obtain ⟨hst, hsd, rfl⟩ := step_finished hclean hstep
      refine ⟨s.best, ?_, ?_, hinv.bestgood⟩
      · show (match step text s with
          | .panicked => RunResult.panicked
          | .finished best => RunResult.ok best
          | .next s' => loop text fuel s') = RunResult.ok s.best
        rw [hstep]
      · intro hb
        have := hinv.bestempty hb
        rw [hsd] at this
        rw [hfull] at this ⊢
        exact this.symm
    | next s' =>
      have h1 : loop text (fuel + 1) s = loop text fuel s' := by
        show (match step text s with
          | .panicked => RunResult.panicked
          | .finished best => RunResult.ok best
          | .next s' => loop text fuel s') = _
        rw [hstep]
      rw [h1]
      exact ih s' (inv_step hclean hfull hinv hstep)
        (by have := measure_decreases hclean hfull hinv hstep; omega)

theorem ldcSpec_length_le (text : List Nat) : (ldcSpec text).length ≤ 255 := by
  unfold ldcSpec
  calc ((List.range 255).filterMap fun c => leftmostIdx? c text).length
      ≤ (List.range 255).length := List.length_filterMap_le _ _
    _ = 255 := List.length_range 255

theorem measure_init_lt {text full : List Nat} (hfull : full = ldcSpec text) :
    measureOf text (initState text full) < lls_fuel text := by
  unfold measureOf lls_fuel
  have h1 : (initState text full).seeds.length ≤ 255 := by
    show full.length ≤ 255
    rw [hfull]
    exact ldcSpec_length_le text
  have h2 : (initState text full).seeds.length *
      (258 ^ (text.length + 1) + 1) ≤ 255 * (258 ^ (text.length + 1) + 1) :=
    Nat.mul_le_mul_right _ h1
  have h3 : 257 * (258 ^ (text.length + 1) + 1) ≤
      (text.length + 257) * (258 ^ (text.length + 1) + 1) :=
    Nat.mul_le_mul_right _ (by omega)
  have h4 : 257 * (258 ^ (text.length + 1) + 1) =
      255 * (258 ^ (text.length + 1) + 1) +
        2 * (258 ^ (text.length + 1) + 1) := by ring
  have h5 : 258 ^ (text.length + 1) -
      nuM (tokenOf text (initState text full)) (text.length + 1) ≤
        258 ^ (text.length + 1) := Nat.sub_le _ _
  omega

/-! Assembly: properties of a full run of `longest_lyndon_subsequence`. -/

theorem getD_map_sublist {text ps : List Nat}
    (hb : ∀ p ∈ ps, p < text.length) (hinc : ps.Pairwise (· < ·)) :
    (ps.map fun p => text.getD p 0).Sublist text := by
  have hmp : ps.map (fun p => text.getD p 0) =
      (ps.pmap (fun p hp => (⟨p, hp⟩ : Fin text.length)) hb).map
        fun i => text[i] := by
    rw [List.map_pmap]
    calc ps.map (fun p => text.getD p 0)
        = ps.pmap (fun p _ => text.getD p 0) hb :=
          (List.pmap_eq_map _ _ _ _).symm
      _ = _ := List.pmap_congr ps fun p hp h1 h2 =>
          List.getD_eq_getElem text 0 h2
  rw [hmp]
  apply List.map_getElem_sublist
  rw [List.pairwise_pmap]
  exact hinc.imp fun hab h1 h2 => hab

theorem goodStack_result {text : List Nat} {st : List StackElement}
    (h : GoodStack text st) :
    (∀ e ∈ st.reverse, e.text_pos < text.length) ∧
      st.reverse.Chain' (fun a b => a.text_pos < b.text_pos) ∧
      (subsequence text st.reverse).Sublist text := by
  obtain ⟨hne, hchain, hb, hlyn⟩ := h
  have hb' : ∀ e ∈ st.reverse, e.text_pos < text.length := fun e he =>
    hb e (List.mem_reverse.mp he)
  have hchain' : st.reverse.Chain' fun a b => a.text_pos < b.text_pos :=
    List.chain'_reverse.mpr hchain
  refine ⟨hb', hchain', ?_⟩
  have hmap : ((st.reverse.map fun e => e.text_pos)).Chain' (· < ·) :=
    (List.chain'_map _).mpr hchain'
  have hpos : ((st.reverse.map fun e => e.text_pos)).Pairwise (· < ·) :=
    List.chain'_iff_pairwise.mp hmap
  have heq : subsequence text st.reverse =
      (st.reverse.map fun e => e.text_pos).map fun p => text.getD p 0 := by
    rw [List.map_map]
    rfl
  rw [heq]
  refine getD_map_sublist ?_ hpos
  intro p hp
  obtain ⟨e, he, rfl⟩ := List.mem_map.mp hp
  exact hb' e he

theorem lls_run {text : List Nat} (hclean : ∀ b ∈ text, b < 255) :
    ∃ st, longest_lyndon_subsequence text = .ok st.reverse ∧
      (st = [] → text = []) ∧ (st ≠ [] → GoodStack text st) := by
  obtain ⟨r, hr, hemp, hgood⟩ := loop_ok hclean rfl (lls_fuel text)
    (initState text (ldcSpec text)) (inv_init rfl) (measure_init_lt rfl)
  refine ⟨r, ?_, ?_, hgood⟩
  · unfold longest_lyndon_subsequence
    rw [ldc_clean hclean]
    show (match loop text (lls_fuel text) (initState text (ldcSpec text)) with
      | RunResult.panicked => RunResult.panicked
      | RunResult.outOfFuel => RunResult.outOfFuel
      | RunResult.ok st => RunResult.ok st.reverse) = RunResult.ok r.reverse
    rw [hr]
  · intro h0
    by_contra hne
    exact (ldcSpec_ne_nil hne hclean) (hemp h0)

/-! Behaviour of `best` and `larray` across one iteration. -/

theorem best_strict_improvement {text : List Nat} {s s' : SearchState}
    (h : step text s = .next s') (hne : s'.best ≠ s.best) :
    s.best.length < s'.best.length ∧ s'.best = s'.stack := by
  cases hstack : s.stack with
  | nil =>
    cases hseeds : s.seeds with
    | nil =>
      simp only [step, hstack, hseeds] at h
      exact StepOut.noConfusion h
    | cons q rest =>
      simp only [step, hstack, hseeds] at h
      have hinj := StepOut.next.inj h
      have hbest : s'.best = if s.best.isEmpty then [(⟨q, 1⟩ : StackElement)]
          else s.best := by rw [← hinj]
      have hstk : s'.stack = [(⟨q, 1⟩ : StackElement)] := by rw [← hinj]
      by_cases hbe : s.best.isEmpty
      · have hb0 : s.best = [] := List.isEmpty_iff.mp hbe
        rw [if_pos hbe] at hbest
        refine ⟨?_, by rw [hbest, hstk]⟩
        rw [hbest, hb0]
        simp
      · rw [if_neg hbe] at hbest
        exact absurd hbest hne
  | cons top below =>
    cases hsucc : successor_element text (top.text_pos + 1)
      (if s.upwardmove then s.lastchildedgelabel
        else immatureOf text (top :: below)) with
    | none =>
      simp only [step, hstack, hsucc] at h
      exact StepOut.noConfusion h
    | some oi =>
      cases oi with
      | none =>
        simp only [step, hstack, hsucc] at h
        have hinj := StepOut.next.inj h
        have hbest : s'.best = s.best := by rw [← hinj]
        exact absurd hbest hne
      | some i =>
        simp only [step, hstack, hsucc] at h
        split at h
        · have hinj := StepOut.next.inj h
          have hbest : s'.best = s.best := by rw [← hinj]
          exact absurd hbest hne
        · by_cases himm : immatureOf text (top :: below) = text.getD i 0
          · rw [if_pos himm] at h
            split at h
            · have hinj := StepOut.next.inj h
              have hbest : s'.best = if s.best.length < (top :: below).length + 1
                  then ⟨i, top.period⟩ :: top :: below else s.best := by
                rw [← hinj]
              have hstk : s'.stack = ⟨i, top.period⟩ :: top :: below := by
                rw [← hinj]
              by_cases hlt : s.best.length < (top :: below).length + 1
              · rw [if_pos hlt] at hbest
                refine ⟨?_, by rw [hbest, hstk]⟩
                rw [hbest]
                simp only [List.length_cons] at hlt ⊢
                omega
              · rw [if_neg hlt] at hbest
                exact absurd hbest hne
            · have hinj := StepOut.next.inj h
              have hbest : s'.best = s.best := by rw [← hinj]
              exact absurd hbest hne
          · rw [if_neg himm, if_pos rfl] at h
            have hinj := StepOut.next.inj h
            have hbest : s'.best = if s.best.length < (top :: below).length + 1
                then ⟨i, (top :: below).length + 1⟩ :: top :: below
                else s.best := by rw [← hinj]
            have hstk : s'.stack =
                ⟨i, (top :: below).length + 1⟩ :: top :: below := by
              rw [← hinj]
            by_cases hlt : s.best.length < (top :: below).length + 1
            · rw [if_pos hlt] at hbest
              refine ⟨?_, by rw [hbest, hstk]⟩
              rw [hbest]
              simp only [List.length_cons] at hlt ⊢
              omega
            · rw [if_neg hlt] at hbest
              exact absurd hbest hne

theorem larray_update_on_completion {text : List Nat} {s s' : SearchState}
    (h : step text s = .next s') (hne : s'.larray ≠ s.larray) :
    ∃ i, s'.stack = StackElement.mk i (s.stack.length + 1) :: s.stack ∧
      s'.larray = s.larray.set (s.stack.length + 1) (some i) := by
  cases hstack : s.stack with
  | nil =>
    cases hseeds : s.seeds with
    | nil =>
      simp only [step, hstack, hseeds] at h
      exact StepOut.noConfusion h
    | cons q rest =>
      simp only [step, hstack, hseeds] at h
      have hinj := StepOut.next.inj h
      have hla : s'.larray = s.larray := by rw [← hinj]
      exact absurd hla hne
  | cons top below =>
    cases hsucc : successor_element text (top.text_pos + 1)
      (if s.upwardmove then s.lastchildedgelabel
        else immatureOf text (top :: below)) with
    | none =>
      simp only [step, hstack, hsucc] at h
      exact StepOut.noConfusion h
    | some oi =>
      cases oi with
      | none =>
        simp only [step, hstack, hsucc] at h
        have hinj := StepOut.next.inj h
        have hla : s'.larray = s.larray := by rw [← hinj]
        exact absurd hla hne
      | some i =>
        simp only [step, hstack, hsucc] at h
        split at h
        · have hinj := StepOut.next.inj h
          have hla : s'.larray = s.larray := by rw [← hinj]
          exact absurd hla hne
        · by_cases himm : immatureOf text (top :: below) = text.getD i 0
          · rw [if_pos himm] at h
            split at h
            · rename_i hper
              have hinj := StepOut.next.inj h
              have hla : s'.larray =
                  s.larray.set ((top :: below).length + 1) (some i) := by
                rw [← hinj]
              have hstk : s'.stack = ⟨i, top.period⟩ :: top :: below := by
                rw [← hinj]
              refine ⟨i, ?_, ?_⟩
              · rw [hstk, hper]
              · rw [hla]
            · have hinj := StepOut.next.inj h
              have hla : s'.larray = s.larray := by rw [← hinj]
              exact absurd hla hne
          · rw [if_neg himm, if_pos rfl] at h
            have hinj := StepOut.next.inj h
            have hla : s'.larray =
                s.larray.set ((top :: below).length + 1) (some i) := by
              rw [← hinj]
            have hstk : s'.stack =
                ⟨i, (top :: below).length + 1⟩ :: top :: below := by
              rw [← hinj]
            refine ⟨i, ?_, ?_⟩
            · rw [hstk]
            · rw [hla]

/-! Helper definitions for concrete runs. -/

/-- The reconstructed byte string of a full run, as the source's test does:
`subsequence(text, longest_lyndon_subsequence(text))`; `none` when the run
does not return a result. -/
def lls_bytes (text : List Nat) : Option (List Nat) :=
  match longest_lyndon_subsequence text with
  | .ok r => some (subsequence text r)
  | _ => none

/-- Iterate `step` from a state, stopping early at a panic or at the end. -/
def iterState (text : List Nat) : Nat → SearchState → SearchState
  | 0, s => s
  | n + 1, s =>
    match step text s with
    | .next s' => iterState text n s'
    | _ => s

/-- A state one completion push away: stack `[⟨0, 1⟩]` on the text `[0, 1]`. -/
def exCompleteA : SearchState :=
  ⟨[none, none, none], [⟨0, 1⟩], [⟨0, 1⟩], 0, false, []⟩

/-- The state `step [0, 1] exCompleteA` reaches. -/
def exCompleteB : SearchState :=
  ⟨[none, none, some 1], [⟨1, 2⟩, ⟨0, 1⟩], [⟨1, 2⟩, ⟨0, 1⟩], 0, false, []⟩

/-- A state about to pull the seed `0` of the text `[0]`. -/
def exSeedA : SearchState := ⟨[none, none], [], [], 0, false, [0]⟩

/-- The state `step [0] exSeedA` reaches. -/
def exSeedB : SearchState := ⟨[none, none], [⟨0, 1⟩], [⟨0, 1⟩], 0, false, []⟩

/-! The claims. -/

set_option maxRecDepth 1000000

/-- Claim C1: on every text whose bytes are all at most 254 the search
returns a result; for the empty text the result is empty, and for a
non-empty text the result has length at least 1, reconstructs to a Lyndon
word (strictly lexicographically smaller than every proper rotation of
itself), and reads off a subsequence of the text in original order.  (The
claim's unrestricted form over all byte sequences fails: a text containing
byte value 255 panics, see `lls_byte255_panics`.) -/
theorem lls_total_lyndon_subsequence {text : List Nat}
    (hclean : ∀ b ∈ text, b < 255) :
    ∃ r, longest_lyndon_subsequence text = .ok r ∧
      (text = [] → r = []) ∧
      (text ≠ [] → 1 ≤ r.length ∧ LyndonWord (subsequence text r) ∧
        (subsequence text r).Sublist text) := by
  obtain ⟨st, hok, hemp, hgood⟩ := lls_run hclean
  refine ⟨st.reverse, hok, ?_, ?_⟩
  · intro ht
    subst ht
    have hst : st = [] := by
      by_contra hne
      obtain ⟨_, _, hb, _⟩ := hgood hne
      cases st with
      | nil => exact hne rfl
      | cons e t =>
        have := hb e (by simp)
        simp at this
    rw [hst]
    rfl
  · intro hne
    have hst : st ≠ [] := fun h0 => hne (hemp h0)
    obtain ⟨_, _, _, hlyn⟩ := hgood hst
    obtain ⟨_, _, hsub⟩ := goodStack_result (hgood hst)
    refine ⟨?_, ?_, hsub⟩
    · rw [List.length_reverse]
      exact List.length_pos.mpr hst
    · have hw : subsequence text st.reverse = wordOf text st := rfl
      rw [hw]
      exact hlyn.lyndonWord

/-- Witness for C1 at the text `[0, 1]`. -/
theorem lls_total_lyndon_subsequence_witness :
    ∃ r, longest_lyndon_subsequence [0, 1] = .ok r ∧
      (([0, 1] : List Nat) = [] → r = []) ∧
      (([0, 1] : List Nat) ≠ [] → 1 ≤ r.length ∧
        LyndonWord (subsequence [0, 1] r) ∧
        (subsequence [0, 1] r).Sublist [0, 1]) :=
  lls_total_lyndon_subsequence (by decide)

/-- Counterexample to C1's unrestricted form: a text containing byte value
255 makes `longest_lyndon_subsequence` panic instead of returning. -/
theorem lls_byte255_panics : longest_lyndon_subsequence [255] = .panicked := by
  decide

/-- Claim C3: refuted.  The per-byte-value occurrence table has only 255
entries (`[usize::MAX; u8::MAX as usize]`), one short of the representable
byte range, so a text containing byte value 255 hits an out-of-range write:
`leftmost_distinct_characters [255]` is `none` (the modelled panic). -/
theorem charmap_byte255_out_of_range :
    charmapInit.length = 255 ∧ leftmost_distinct_characters [255] = none := by
  exact ⟨by decide, by decide⟩

/-- Claim C4: the nine test scenarios of the source's
`test_lyndon_subsequence`: for each input, the byte string reconstructed
from the returned positions equals the expected output. -/
theorem lls_test_scenarios :
    lls_bytes [98, 99, 99, 97, 100, 98, 97, 99, 99, 98, 99, 100] =
      some [98, 99, 99, 98, 99, 99, 98, 99, 100] ∧
    lls_bytes [98, 99, 99, 97, 100, 98, 97, 99, 99, 98, 99] =
      some [97, 98, 97, 99, 99, 98, 99] ∧
    lls_bytes [98, 99, 99, 97, 100, 98, 97, 99, 99, 98] =
      some [97, 98, 97, 99, 99, 98] ∧
    lls_bytes [98, 99, 99, 97, 100, 98, 97, 99, 99] =
      some [98, 99, 99, 100, 99, 99] ∧
    lls_bytes [97] = some [97] ∧
    lls_bytes [97, 97] = some [97] ∧
    lls_bytes [97, 97, 97] = some [97] ∧
    lls_bytes [97, 97, 97, 98] = some [97, 97, 97, 98] ∧
    lls_bytes [97, 97, 97, 98, 97] = some [97, 97, 97, 98] :=
  ⟨by decide, by decide, by decide, by decide, by decide, by decide,
    by decide, by decide, by decide⟩

/-- Claim C5: the recorded best result is replaced only by a strictly
longer candidate — whenever one iteration changes `best`, the new value is
strictly longer than the old one (so an equal-length completion never
replaces it) and is the just-completed stack.  Determinism over re-runs is
definitional: the embedding is a pure function of the text. -/
theorem best_replaced_only_if_longer {text : List Nat} {s s' : SearchState}
    (h : step text s = .next s') (hne : s'.best ≠ s.best) :
    s.best.length < s'.best.length ∧ s'.best = s'.stack :=
  best_strict_improvement h hne

/-- Witness for C5: pulling the seed of the text `[0]` installs a first
(longer-than-empty) best. -/
theorem best_replaced_only_if_longer_witness :
    exSeedA.best.length < exSeedB.best.length ∧ exSeedB.best = exSeedB.stack :=
  @best_replaced_only_if_longer [0] exSeedA exSeedB (by decide) (by decide)

/-- Claim C6 (amended part): `larray` changes only when an element is
pushed whose period equals the whole new stack length — that is, exactly
when a new Lyndon subsequence of that length is completed — and the entry
written is the completed subsequence's final text position, at index the
new subsequence length.  (The claim's "rightmost / never shrinks" part is
refuted: see `larray_entry_shrinks`.) -/
theorem larray_written_only_on_completion {text : List Nat}
    {s s' : SearchState} (h : step text s = .next s')
    (hne : s'.larray ≠ s.larray) :
    ∃ i, s'.stack = StackElement.mk i (s.stack.length + 1) :: s.stack ∧
      s'.larray = s.larray.set (s.stack.length + 1) (some i) :=
  larray_update_on_completion h hne

/-- Witness for C6's theorem: completing the Lyndon word `01` on the text
`[0, 1]` writes position 1 at index 2. -/
theorem larray_written_only_on_completion_witness :
    ∃ i, exCompleteB.stack =
        StackElement.mk i (exCompleteA.stack.length + 1) :: exCompleteA.stack ∧
      exCompleteB.larray =
        exCompleteA.larray.set (exCompleteA.stack.length + 1) (some i) :=
  @larray_written_only_on_completion [0, 1] exCompleteA exCompleteB (by decide)
    (by decide)

/-- Counterexample to C6's "stores the rightmost completion position /
never shrinks": on the text `[1, 2, 0, 3]`, `larray[2]` holds position 3
after two iterations and the smaller position 1 after six iterations of
the same run. -/
theorem larray_entry_shrinks :
    ((iterState [1, 2, 0, 3] 2
        (initState [1, 2, 0, 3] (ldcSpec [1, 2, 0, 3]))).larray.getD 2 none
      = some 3) ∧
    ((iterState [1, 2, 0, 3] 6
        (initState [1, 2, 0, 3] (ldcSpec [1, 2, 0, 3]))).larray.getD 2 none
      = some 1) :=
  ⟨by decide, by decide⟩

/-- Claim C7: on every text whose bytes are all at most 254,
`leftmost_distinct_characters` yields the leftmost occurrence position of
each byte value present in the text, in strictly ascending order of the
byte values at those positions (so exactly one position per distinct value,
absent values omitted).  (The claim's unrestricted form fails for texts
containing byte value 255, see `ldc_byte255_example`.) -/
theorem ldc_characterization {text : List Nat}
    (hclean : ∀ b ∈ text, b < 255) :
    ∃ l, leftmost_distinct_characters text = some l ∧
      l.Pairwise (fun a b => text.getD a 0 < text.getD b 0) ∧
      (∀ p ∈ l, p < text.length ∧
        ∀ j, j < p → text.getD j 0 ≠ text.getD p 0) ∧
      (∀ j, j < text.length → ∃ p ∈ l, text.getD p 0 = text.getD j 0) := by
  refine ⟨ldcSpec text, ldc_clean hclean, pairwise_ldcSpec text, ?_, ?_⟩
  · intro p hp
    exact ldcSpec_spec hp
  · intro j hj
    exact ldcSpec_covers hj (hclean _ (getD_mem hj))

/-- Witness for C7 at the text `[1, 0, 1]`. -/
theorem ldc_characterization_witness :
    ∃ l, leftmost_distinct_characters [1, 0, 1] = some l ∧
      l.Pairwise (fun a b => [1, 0, 1].getD a 0 < [1, 0, 1].getD b 0) ∧
      (∀ p ∈ l, p < ([1, 0, 1] : List Nat).length ∧
        ∀ j, j < p → [1, 0, 1].getD j 0 ≠ [1, 0, 1].getD p 0) ∧
      (∀ j, j < ([1, 0, 1] : List Nat).length →
        ∃ p ∈ l, [1, 0, 1].getD p 0 = [1, 0, 1].getD j 0) :=
  ldc_characterization (by decide)

/-- Counterexample to C7's unrestricted form: on a text containing byte
value 255 the iterator panics (modelled as `none`) instead of yielding. -/
theorem ldc_byte255_example : leftmost_distinct_characters [97, 255] = none := by
  decide

/-- Claim C8: on every text whose bytes are all at most 254,
`successor_element text start value` returns no position exactly when
`start` is at or past the end of the text or no byte of the suffix reaches
`value`; a returned position is in the suffix, carries the smallest byte
value that is at least `value`, is the leftmost occurrence of that byte
value in the suffix, and such a position is returned whenever one exists.
(The claim's unrestricted form fails for texts containing byte value 255,
see `successor_byte255_example`.) -/
theorem successor_characterization {text : List Nat} {start value : Nat}
    (hclean : ∀ b ∈ text, b < 255) :
    (successor_element text start value = some none ↔
      (text.length ≤ start ∨
        ∀ j, start ≤ j → j < text.length → text.getD j 0 < value)) ∧
    (∀ i, successor_element text start value = some (some i) →
      start ≤ i ∧ i < text.length ∧ value ≤ text.getD i 0 ∧
      (∀ j, start ≤ j → j < i → text.getD j 0 ≠ text.getD i 0) ∧
      ∀ j, start ≤ j → j < text.length → value ≤ text.getD j 0 →
        text.getD i 0 ≤ text.getD j 0) ∧
    (¬ (text.length ≤ start ∨
        ∀ j, start ≤ j → j < text.length → text.getD j 0 < value) →
      ∃ i, successor_element text start value = some (some i)) := by
  have hiff : successor_element text start value = some none ↔
      (text.length ≤ start ∨
        ∀ j, start ≤ j → j < text.length → text.getD j 0 < value) := by
    rw [successor_eq_none hclean]
    constructor
    · exact Or.inr
    · rintro (h | h)
      · intro j hj1 hj2
        omega
      · exact h
  refine ⟨hiff, fun i h => successor_eq_some hclean h, ?_⟩
  intro hnot
  obtain ⟨r, hr⟩ := successor_not_panic hclean
  cases r with
  | none => exact absurd (hiff.mp hr) hnot
  | some i => exact ⟨i, hr⟩

/-- Witness for C8 at the text `[5, 3, 7]`, `start = 1`, `value = 4`
(where the successor is position 2). -/
theorem successor_characterization_witness :
    (successor_element [5, 3, 7] 1 4 = some none ↔
      (([5, 3, 7] : List Nat).length ≤ 1 ∨
        ∀ j, 1 ≤ j → j < ([5, 3, 7] : List Nat).length →
          [5, 3, 7].getD j 0 < 4)) ∧
    (∀ i, successor_element [5, 3, 7] 1 4 = some (some i) →
      1 ≤ i ∧ i < ([5, 3, 7] : List Nat).length ∧ 4 ≤ [5, 3, 7].getD i 0 ∧
      (∀ j, 1 ≤ j → j < i → [5, 3, 7].getD j 0 ≠ [5, 3, 7].getD i 0) ∧
      ∀ j, 1 ≤ j → j < ([5, 3, 7] : List Nat).length →
        4 ≤ [5, 3, 7].getD j 0 → [5, 3, 7].getD i 0 ≤ [5, 3, 7].getD j 0) ∧
    (¬ (([5, 3, 7] : List Nat).length ≤ 1 ∨
        ∀ j, 1 ≤ j → j < ([5, 3, 7] : List Nat).length →
          [5, 3, 7].getD j 0 < 4) →
      ∃ i, successor_element [5, 3, 7] 1 4 = some (some i)) :=
  successor_characterization (by decide)

/-- Counterexample to C8's unrestricted form: on a text containing byte
value 255 the function panics (outer `none`) instead of returning. -/
theorem successor_byte255_example : successor_element [255] 0 0 = none := by
  decide

/-- Claim C9: the search terminates on every finite input — the run never
exhausts the fuel bound; it ends either in a returned result or (for texts
containing byte value 255) in the modelled panic, which in the source is
also a halt. -/
theorem lls_terminates (text : List Nat) :
    longest_lyndon_subsequence text = .panicked ∨
      ∃ r, longest_lyndon_subsequence text = .ok r := by
  by_cases hclean : ∀ b ∈ text, b < 255
  · obtain ⟨st, hok, _, _⟩ := lls_run hclean
    exact Or.inr ⟨st.reverse, hok⟩
  · push_neg at hclean
    obtain ⟨b, hb, hble⟩ := hclean
    have hdirty : ∃ b ∈ text, 255 ≤ b := ⟨b, hb, by omega⟩
    unfold longest_lyndon_subsequence
    rw [ldc_dirty hdirty]
    exact Or.inl rfl

/-- Claim C10: on every text whose bytes are all at most 254, every entry
of a returned result has its position strictly inside the text and the
positions are strictly increasing from first to last entry, so the
unchecked indexing of `subsequence` stays in bounds. -/
theorem lls_positions_valid {text : List Nat} {r : List StackElement}
    (hclean : ∀ b ∈ text, b < 255)
    (h : longest_lyndon_subsequence text = .ok r) :
    (∀ e ∈ r, e.text_pos < text.length) ∧
      r.Chain' fun a b => a.text_pos < b.text_pos := by
  obtain ⟨st, hok, hemp, hgood⟩ := lls_run hclean
  rw [hok] at h
  have hr : r = st.reverse := (RunResult.ok.inj h).symm
  subst hr
  by_cases hst : st = []
  · subst hst
    exact ⟨by simp, by simp⟩
  · obtain ⟨hb, hc, _⟩ := goodStack_result (hgood hst)
    exact ⟨hb, hc⟩

/-- Witness for C10 at the text `[1, 0]`, whose result is the single
position 1. -/
theorem lls_positions_valid_witness :
    (∀ e ∈ [StackElement.mk 1 1], e.text_pos < ([1, 0] : List Nat).length) ∧
      [StackElement.mk 1 1].Chain' fun a b => a.text_pos < b.text_pos :=
  lls_positions_valid (by decide) (by decide)

end LLS
